import Mathlib

/-!
Verification development for the code-style-enforcer analysis core.

The Python sources under src/backend are shallowly embedded below:
pure functions become Lean functions on List Char / String / ℚ / ℤ,
stateful backends (Redis, DynamoDB) become explicit state passing, and
the asynchronous dispatcher becomes a function of each worker's outcome.
Floating point arithmetic is modelled by exact rational arithmetic, and
Python's round(x, 4) by decimal rounding half-to-even on ℚ.
-/

/-! ## Data model (src/backend/core/models.py) -/

/-- One suggestion from one agent (models.Suggestion).  severity is an int
in 1..5, confidence a float in [0,1]; floats are modelled as rationals. -/
structure Suggestion where
  id : String
  agent : String
  type : String
  message : String
  severity : ℤ
  confidence : ℚ
  score : ℚ
deriving DecidableEq, Repr

/-- Result of a single agent run (models.AgentResult). -/
structure AgentResult where
  agent : String
  suggestions : List Suggestion
  took_ms : ℤ
  error : Option String
deriving DecidableEq, Repr

/-- What the analyze pipeline returns (models.AnalysisResult); the weight
map dict is modelled as an insertion-ordered association list. -/
structure AnalysisResult where
  analysis_id : String
  code_hash : String
  from_cache : Bool
  suggestions : List Suggestion
  agent_weights : List (String × ℚ)
  agent_results : Option (List AgentResult)
  request_id : String
deriving DecidableEq, Repr

/-! ## Code fingerprint (src/backend/core/code_hash.py) -/

/-- Characters Python treats as whitespace for str.split() and the regex
class backslash-s on str (ASCII whitespace, the C0 separators, and the
common Unicode space characters). -/
def pyIsSpace (c : Char) : Bool :=
  let n := c.toNat
  n == 32 || n == 9 || n == 10 || n == 11 || n == 12 || n == 13 ||
  n == 0x1c || n == 0x1d || n == 0x1e || n == 0x1f || n == 0x85 ||
  n == 0xa0 || n == 0x1680 || (decide (0x2000 ≤ n) && decide (n ≤ 0x200a)) ||
  n == 0x2028 || n == 0x2029 || n == 0x202f || n == 0x205f || n == 0x3000

/-- Line boundaries recognized by Python str.splitlines (besides the
two-character sequence CR LF, handled separately). -/
def isLineBreak (c : Char) : Bool :=
  let n := c.toNat
  n == 10 || n == 13 || n == 11 || n == 12 ||
  n == 0x1c || n == 0x1d || n == 0x1e || n == 0x85 ||
  n == 0x2028 || n == 0x2029

/-- Operator and punctuation characters of the normalization regex in
normalize_code: = + - * / < > ! & | , ; : curly braces ( ) [ ]. -/
def isOp (c : Char) : Bool :=
  let n := c.toNat
  n == 61 || n == 43 || n == 45 || n == 42 || n == 47 || n == 60 || n == 62 ||
  n == 33 || n == 38 || n == 124 || n == 44 || n == 59 || n == 58 ||
  n == 123 || n == 125 || n == 40 || n == 41 || n == 91 || n == 93

/-- Worker for splitlines: accumulate the current line (reversed) and cut
at every line boundary; a trailing boundary does not open a final empty
line, matching Python str.splitlines. -/
def splitlinesGo : List Char → List Char → List (List Char)
  | [], acc => [acc.reverse]
  | '\r' :: '\n' :: rest, acc =>
    acc.reverse :: (if rest.isEmpty then [] else splitlinesGo rest [])
  | c :: rest, acc =>
    if isLineBreak c then acc.reverse :: (if rest.isEmpty then [] else splitlinesGo rest [])
    else splitlinesGo rest (c :: acc)

/-- Python str.splitlines on a character list. -/
def splitlines (cs : List Char) : List (List Char) :=
  if cs.isEmpty then [] else splitlinesGo cs []

/-- Embedding of re.sub applied to a hash-mark comment: drop everything
from the first hash mark to the end of the line. -/
def stripHash : List Char → List Char
  | [] => []
  | c :: cs => if c == '#' then [] else c :: stripHash cs

/-- Embedding of re.sub applied to a double-slash comment: drop everything
from the first occurrence of two adjacent slashes to the end of the line. -/
def stripSlashes : List Char → List Char
  | [] => []
  | '/' :: '/' :: _ => []
  | c :: cs => c :: stripSlashes cs

/-- Scanner for the operator-spacing substitution in normalize_code
(whitespace-run, operator, whitespace-run collapses to the operator).
afterOp records that the scanner sits right after an emitted operator
(its trailing whitespace is still being consumed); pend holds, reversed,
a pending whitespace run whose fate depends on the next character. -/
def collapseOpsGo : Bool → List Char → List Char → List Char
  | _, pend, [] => pend.reverse
  | afterOp, pend, c :: cs =>
    if pyIsSpace c then
      if afterOp then collapseOpsGo true pend cs
      else collapseOpsGo false (c :: pend) cs
    else if isOp c then
      c :: collapseOpsGo true [] cs
    else
      pend.reverse ++ c :: collapseOpsGo false [] cs

/-- Operator-spacing normalization pass of normalize_code. -/
def collapseOps (cs : List Char) : List Char :=
  collapseOpsGo false [] cs

/-- Worker for whitespace collapsing: pend records that a separating
space is owed before the next word character. -/
def squeezeGo : Bool → List Char → List Char
  | _, [] => []
  | pend, c :: cs =>
    if pyIsSpace c then squeezeGo true cs
    else if pend then ' ' :: c :: squeezeGo false cs
    else c :: squeezeGo false cs

/-- Embedding of Python single-space-join of str.split(): collapse every
whitespace run to a single space and strip both ends. -/
def squeeze (cs : List Char) : List Char :=
  squeezeGo false (cs.dropWhile pyIsSpace)

/-- Per-line transformation of normalize_code: strip both comment styles,
collapse spacing around operators, then collapse remaining whitespace. -/
def normLine (l : List Char) : List Char :=
  squeeze (collapseOps (stripSlashes (stripHash l)))

/-- Join lines with a newline character. -/
def joinNL : List (List Char) → List Char
  | [] => []
  | [l] => l
  | l :: ls => l ++ '\n' :: joinNL ls

/-- Embedding of code_hash.normalize_code: normalize every line, drop the
lines that become empty, and join the rest with newlines. -/
def normalize_code (code : String) : String :=
  String.mk (joinNL (((splitlines code.toList).map normLine).filter (fun l => !l.isEmpty)))

/-- Embedding of code_hash.compute_code_hash.  The SHA-256 hex digest is an
external primitive (hashlib); it is modelled as an arbitrary function
parameter, which suffices for every fingerprint-equality property since
the digest of equal normalized strings is equal. -/
def compute_code_hash (sha256hex : String → String) (code : String) : String :=
  sha256hex (normalize_code code)

/-! ## Suggestion merger (src/backend/services/suggestion_merger.py) -/

/-- Word characters of the regex class backslash-w (ASCII view). -/
def isWordChar (c : Char) : Bool :=
  c.isAlphanum || c == '_'

/-- Match of the line-number-reference pattern of _normalize_message
(the word line, an optional letter s, optional whitespace, one or more
digits, and an optional dash-digits range) at the head of the list;
returns the remainder after the greedy match. -/
def matchLineRef : List Char → Option (List Char)
  | 'l' :: 'i' :: 'n' :: 'e' :: rest =>
    let rest2 := match rest with
      | 's' :: r => r
      | _ => rest
    let rest3 := rest2.dropWhile pyIsSpace
    match rest3 with
    | d :: _ =>
      if d.isDigit then
        let rest4 := rest3.dropWhile Char.isDigit
        match rest4 with
        | '-' :: e :: r5 => if e.isDigit then some ((e :: r5).dropWhile Char.isDigit) else some rest4
        | _ => some rest4
      else none
    | [] => none
  | _ => none

/-- Leftmost, non-overlapping removal of every line-number reference;
fuel equal to the input length makes the scan structurally recursive
(each step consumes at least one character). -/
def stripLineRefsGo : Nat → List Char → List Char
  | 0, cs => cs
  | _ + 1, [] => []
  | fuel + 1, c :: cs =>
    match matchLineRef (c :: cs) with
    | some rest => stripLineRefsGo fuel rest
    | none => c :: stripLineRefsGo fuel cs

/-- Removal of every line-number reference, as re.sub does. -/
def stripLineRefs (cs : List Char) : List Char :=
  stripLineRefsGo cs.length cs

/-- Embedding of suggestion_merger._normalize_message: lowercase, strip
line-number references, strip everything that is neither a word character
nor whitespace, collapse whitespace. -/
def normalize_message (msg : String) : String :=
  String.mk (squeeze ((stripLineRefs (msg.toList.map Char.toLower)).filter
    (fun c => isWordChar c || pyIsSpace c)))

/-- Containment of pat as a contiguous subsequence of the character list. -/
def containsSeq (pat : List Char) : List Char → Bool
  | [] => pat.isEmpty
  | c :: cs => pat.isPrefixOf (c :: cs) || containsSeq pat cs

/-- Python substring containment on strings. -/
def strContains (hay pat : String) : Bool :=
  containsSeq pat.toList hay.toList

/-- Marker substrings whose presence in a normalized message routes the
suggestion into the duplicate_operation bucket. -/
def dupMarkers : List String :=
  ["duplicate", "identical", "twice", "same arguments", "called twice"]

/-- Embedding of suggestion_merger._get_dedup_key. -/
def get_dedup_key (s : Suggestion) : String :=
  let key := normalize_message s.message
  if dupMarkers.any (fun w => strContains key w) then "duplicate_operation"
  else if strContains key "unused" && strContains key "import" then "unused_import"
  else if strContains key "unused" && strContains key "variable" then "unused_variable"
  else if strContains key "docstring" && (strContains key "missing" || strContains key "no docstring")
    then "missing_docstring"
  else key

/-- Static tiebreak priorities (suggestion_merger.AGENT_PRIORITY). -/
def AGENT_PRIORITY : List (String × ℤ) :=
  [("minimalism", 5), ("security", 4), ("naming", 3), ("docstring", 2), ("style", 1)]

/-- Priority lookup with the dict-get default 0 of _is_better. -/
def agentPriority (a : String) : ℤ :=
  (AGENT_PRIORITY.lookup a).getD 0

/-- Embedding of suggestion_merger._is_better: true when the new
suggestion should replace the existing one in its bucket. -/
def is_better (n e : Suggestion) : Bool :=
  if n.severity ≠ e.severity then decide (n.severity > e.severity)
  else if n.confidence ≠ e.confidence then decide (n.confidence > e.confidence)
  else decide (agentPriority n.agent > agentPriority e.agent)

/-- Update the value stored at a present key, keeping insertion order,
as assignment to an existing key of a Python dict does. -/
def dictUpdate (seen : List (String × Suggestion)) (k : String) (v : Suggestion) :
    List (String × Suggestion) :=
  seen.map (fun p => if p.1 == k then (p.1, v) else p)

/-- Loop of suggestion_merger._deduplicate over the seen dict, modelled
as an insertion-ordered association list. -/
def dedupGo : List (String × Suggestion) → List Suggestion → List (String × Suggestion)
  | seen, [] => seen
  | seen, s :: rest =>
    let k := get_dedup_key s
    match seen.lookup k with
    | none => dedupGo (seen ++ [(k, s)]) rest
    | some e => if is_better s e then dedupGo (dictUpdate seen k s) rest else dedupGo seen rest

/-- Embedding of suggestion_merger._deduplicate. -/
def deduplicate (l : List Suggestion) : List Suggestion :=
  (dedupGo [] l).map Prod.snd

/-- Python round(x, 4) on the exact rational value: round to the nearest
multiple of 1/10000, ties to even. -/
def pyRound4 (q : ℚ) : ℚ :=
  let s := q * 10000
  let n : ℤ :=
    if s - Int.floor s = 1 / 2 then
      (if 2 ∣ Int.floor s then Int.floor s else Int.floor s + 1)
    else Int.floor (s + 1 / 2)
  (n : ℚ) / 10000

/-- Embedding of suggestion_merger._score_suggestion: a rescored copy
with score = round(severity / 5 * confidence * weight, 4). -/
def score_suggestion (s : Suggestion) (weight : ℚ) : Suggestion :=
  { s with score := pyRound4 ((s.severity : ℚ) / 5 * s.confidence * weight) }

/-- Dict get with default (weights.get(agent, 1.0) and item.get(a, 1.0)). -/
def dictGetD (d : List (String × ℚ)) (k : String) (v : ℚ) : ℚ :=
  (d.lookup k).getD v

/-- Ranking comparison of merge's final sort: severity descending, then
score descending; rankGT y x says y must stay strictly before x. -/
def rankGT (a b : Suggestion) : Bool :=
  decide (b.severity < a.severity) || (a.severity == b.severity && decide (b.score < a.score))

/-- Stable insertion into a ranked list (equal keys keep input order,
matching Python's stable sort with reverse=True). -/
def insRanked (x : Suggestion) : List Suggestion → List Suggestion
  | [] => [x]
  | y :: ys => if rankGT y x then y :: insRanked x ys else x :: y :: ys

/-- Stable descending sort by (severity, score), the unique stable
arrangement Python's list.sort(key=..., reverse=True) produces. -/
def rankSort : List Suggestion → List Suggestion
  | [] => []
  | x :: xs => insRanked x (rankSort xs)

/-- Embedding of suggestion_merger.merge.  The weight map that the source
awaits from get_weights() is passed as the weights parameter. -/
def merge (agent_results : List AgentResult) (weights : List (String × ℚ))
    (analysis_id code_hash request_id : String) (from_cache : Bool) : AnalysisResult :=
  let all_suggestions := agent_results.flatMap
    (fun ar => ar.suggestions.map (fun s => score_suggestion s (dictGetD weights ar.agent 1)))
  let deduped := deduplicate all_suggestions
  { analysis_id := analysis_id, code_hash := code_hash, from_cache := from_cache,
    suggestions := rankSort deduped, agent_weights := weights,
    agent_results := some agent_results, request_id := request_id }

/-- Flattened duplicate-phrasing test of _get_dedup_key's first branch. -/
def dupPhrase (key : String) : Bool :=
  strContains key "duplicate" || strContains key "identical" || strContains key "twice"
    || strContains key "same arguments" || strContains key "called twice"

/-- Adjacent-pair predicate: no whitespace character sits immediately
next to an operator character, in either order. -/
def sepOk (a b : Char) : Bool :=
  !(pyIsSpace a && isOp b) && !(isOp a && pyIsSpace b)

/-- A character list is whitespace-operator free when no adjacent pair
puts whitespace next to an operator; on such lines the operator-spacing
substitution is the identity. -/
def wsOpFree (l : List Char) : Prop :=
  l.Chain' (fun a b => sepOk a b = true)

/-! ## Weight store (src/backend/rl/policy_store.py) -/

/-- Fixed closed agent set, in registration order. -/
def AGENTS : List String :=
  ["style", "naming", "minimalism", "docstring", "security"]

def DEFAULT_WEIGHT : ℚ := 1

def MIN_WEIGHT : ℚ := 1 / 10

def MAX_WEIGHT : ℚ := 2

/-- Default weight record: every known agent at 1.0. -/
def defaultWeights : List (String × ℚ) :=
  AGENTS.map (fun a => (a, DEFAULT_WEIGHT))

/-- Clamp of update_weight: max(MIN_WEIGHT, min(MAX_WEIGHT, x)). -/
def clampWeight (x : ℚ) : ℚ :=
  max MIN_WEIGHT (min MAX_WEIGHT x)

/-- Dict set: overwrite a present key in place, append a fresh one. -/
def dictSet (d : List (String × ℚ)) (k : String) (v : ℚ) : List (String × ℚ) :=
  if (d.lookup k).isSome then d.map (fun p => if p.1 == k then (p.1, v) else p)
  else d ++ [(k, v)]

/-- Embedding of get_weights in the local Redis mode (USE_LOCAL_DYNAMO):
returns the stored record, or initializes and persists the defaults.
The pair is (returned weights, Redis state after the call). -/
def get_weights_memory (store : Option (List (String × ℚ))) :
    List (String × ℚ) × Option (List (String × ℚ)) :=
  match store with
  | some m => (m, some m)
  | none => (defaultWeights, some defaultWeights)

/-- Embedding of get_weights in the DynamoDB mode: the table state is an
optional stored item, readOk is false when the get_item call raises.  An
absent item and a failed read both fall back to the defaults; this code
path performs no write, so the table component is returned unchanged. -/
def get_weights_dynamo (table : Option (List (String × ℚ))) (readOk : Bool) :
    List (String × ℚ) × Option (List (String × ℚ)) :=
  ( if readOk then
      match table with
      | some item => AGENTS.map (fun a => (a, dictGetD item a DEFAULT_WEIGHT))
      | none => defaultWeights
    else defaultWeights
  , table)

/-- Embedding of update_weight in the local Redis mode: read, clamp the
bumped weight, persist the whole map, return the new value. -/
def update_weight_memory (store : Option (List (String × ℚ))) (agent : String) (delta : ℚ) :
    ℚ × Option (List (String × ℚ)) :=
  let weights := (get_weights_memory store).1
  let old := dictGetD weights agent DEFAULT_WEIGHT
  let nw := clampWeight (old + delta)
  (nw, some (dictSet weights agent nw))

/-- Embedding of update_weight in the DynamoDB mode: writeOk is false
when put_item raises; the failure is logged only, the table keeps its
previous state, and the new value is returned regardless. -/
def update_weight_dynamo (table : Option (List (String × ℚ))) (readOk writeOk : Bool)
    (agent : String) (delta : ℚ) : ℚ × Option (List (String × ℚ)) :=
  let weights := (get_weights_dynamo table readOk).1
  let old := dictGetD weights agent DEFAULT_WEIGHT
  let nw := clampWeight (old + delta)
  let item := dictSet (AGENTS.map (fun a => (a, dictGetD weights a DEFAULT_WEIGHT))) agent nw
  (nw, if writeOk then some item else table)

/-! ## Reward model (src/backend/rl/reward_engine.py, rl_trainer.py) -/

/-- Embedding of reward_engine.compute_reward. -/
def compute_reward (accepted : Bool) (user_rating : ℤ) : ℚ :=
  if accepted then (user_rating : ℚ) else -(user_rating : ℚ)

/-- Learning rate of rl_trainer (ALPHA = 0.05). -/
def ALPHA : ℚ := 0.05

/-- Embedding of rl_trainer.apply_feedback over the local-mode store:
delta = ALPHA * reward, then update_weight. -/
def apply_feedback_memory (store : Option (List (String × ℚ))) (agent : String)
    (accepted : Bool) (user_rating : ℤ) : ℚ × Option (List (String × ℚ)) :=
  update_weight_memory store agent (ALPHA * compute_reward accepted user_rating)

/-! ## Rate limiter (src/backend/core/rate_limiter.py) -/

/-- Result record of the limiter check (rate_limiter.RateLimitResult). -/
structure RateLimitResult where
  allowed : Bool
  count : ℤ
  retry_after : ℤ
deriving DecidableEq, Repr

/-- Backend situations the limiter can face: get_redis() returned None,
the eval call raised, or the call reached the counter, whose state for
the checked key is an optional (count, ttl) pair. -/
inductive RedisConn where
  | down
  | failure
  | ok (st : Option (ℤ × ℤ))

/-- Embedding of the atomic Lua script: INCR the counter, set the expiry
to the window on first increment, return (count, ttl). -/
def rateLimitScript (st : Option (ℤ × ℤ)) (window : ℤ) : ℤ × ℤ :=
  let current := (match st with | none => 0 | some p => p.1) + 1
  let ttl := match st with
    | none => window
    | some p => if current = 1 then window else p.2
  (current, ttl)

/-- Embedding of rate_limiter.is_allowed.  The down and failure branches
are the two fail-open paths (no connection, eval exception). -/
def is_allowed (conn : RedisConn) (limit window : ℤ) : RateLimitResult :=
  match conn with
  | .down => ⟨true, 0, 0⟩
  | .failure => ⟨true, 0, 0⟩
  | .ok st =>
    let r := rateLimitScript st window
    if r.1 > limit then ⟨false, r.1, r.2⟩ else ⟨true, r.1, 0⟩

/-! ## Agent dispatcher (src/backend/services/agent_dispatcher.py) -/

/-- Outcome of one worker's guarded run inside _run_agent: the agent call
returned within the per-worker timeout (with the payload it built through
BaseAgent._make_result, which tags the result with the agent's own name),
or asyncio.wait_for raised TimeoutError, or the call raised otherwise. -/
inductive WorkerOutcome where
  | completed (suggestions : List Suggestion) (took_ms : ℤ) (error : Option String)
  | timeout
  | crash (msg : String)

/-- Per-worker timeout in milliseconds (int(AGENT_TIMEOUT * 1000)). -/
def AGENT_TIMEOUT_MS : ℤ := 8000

/-- Embedding of agent_dispatcher._run_agent: never raises, converts a
timeout or crash into an error result for that agent alone. -/
def run_agent (name : String) (o : WorkerOutcome) : AgentResult :=
  match o with
  | .completed s t e => ⟨name, s, t, e⟩
  | .timeout => ⟨name, [], AGENT_TIMEOUT_MS, some "timeout"⟩
  | .crash m => ⟨name, [], 0, some m⟩

/-- Embedding of agent_dispatcher.dispatch.  outcome gives each worker's
behavior on this input; gather preserves task order, so the collected
results follow the registration order AGENTS independent of completion
order.  When the global 12-second wait_for around the gather expires, the
except branch sets results to the empty list.  The final isinstance loop
keeps every AgentResult; since _run_agent never raises, all gathered
values are AgentResult and the exception branch is dead. -/
def dispatch (outcome : String → WorkerOutcome) (globalTimeoutExpired : Bool) :
    List AgentResult :=
  if globalTimeoutExpired then [] else AGENTS.map (fun a => run_agent a (outcome a))

/-! ## Analysis pipeline (src/backend/services/analyzer_service.py) -/

/-- Embedding of analyzer_service.analyze.  cache models core.cache
get_analysis keyed by fingerprint; live_weights is what get_weights()
would return during merge on a miss; dispatched is the agent-dispatch
outcome on a miss; fresh_analysis_id stands for the generated uuid id. -/
def analyze (sha256hex : String → String) (cache : String → Option AnalysisResult)
    (live_weights : List (String × ℚ)) (dispatched : List AgentResult)
    (code : String) (fresh_analysis_id request_id : String) : AnalysisResult :=
  let ch := compute_code_hash sha256hex code
  match cache ch with
  | some cached =>
    { analysis_id := fresh_analysis_id, code_hash := ch, from_cache := true,
      suggestions := cached.suggestions, agent_weights := cached.agent_weights,
      agent_results := cached.agent_results, request_id := request_id }
  | none => merge dispatched live_weights fresh_analysis_id ch request_id false

/-! # Theorems -/

/-- Every result _run_agent builds carries the worker's own name: the
agent constructors all tag the result with self.name. -/
theorem run_agent_agent (a : String) (o : WorkerOutcome) : (run_agent a o).agent = a := by
  cases o <;> rfl

/-- C1 counterexample: when the global 12-second timeout expires, dispatch
returns the empty list, not five results — the claim fails in the global
timeout case it explicitly includes. -/
theorem C1_counterexample :
    (dispatch (fun _ => WorkerOutcome.timeout) true).length ≠ 5 := by
  decide

/-- C1 (amended): whenever the global 12-second timeout does not expire,
dispatch returns exactly 5 AgentResult values, one per agent identifier,
listed in the static registration order (style, naming, minimalism,
docstring, security) regardless of every worker's individual outcome
(success, failure, or per-worker timeout). -/
theorem C1_dispatch_five_results (outcome : String → WorkerOutcome) :
    (dispatch outcome false).map AgentResult.agent
        = ["style", "naming", "minimalism", "docstring", "security"] ∧
    (dispatch outcome false).length = 5 := by
  constructor
  · simp [dispatch, AGENTS, List.map_map, Function.comp, run_agent_agent]
  · simp [dispatch, AGENTS]

/-- C6 counterexample: in the DynamoDB mode with no stored record,
get_weights returns the default map but persists nothing — the backend
still holds no record afterwards, so a subsequent read does not observe
the default record, contrary to the claim. -/
theorem C6_counterexample :
    (get_weights_dynamo none true).1 = defaultWeights ∧
    (get_weights_dynamo none true).2 = none ∧
    (get_weights_dynamo none true).2 ≠ some defaultWeights := by
  refine ⟨rfl, rfl, ?_⟩
  simp [get_weights_dynamo]

/-- C6 (amended): when no weight record exists, get_weights returns the
default map (every known agent at 1.0) in both modes, but only the local
Redis mode persists it before returning; the DynamoDB path performs no
write, leaving the backend unchanged (in particular still without a
record). -/
theorem C6_get_weights_initialization (table : Option (List (String × ℚ))) (readOk : Bool) :
    get_weights_memory none = (defaultWeights, some defaultWeights) ∧
    (get_weights_dynamo none readOk).1 = defaultWeights ∧
    (get_weights_dynamo table readOk).2 = table := by
  refine ⟨rfl, ?_, rfl⟩
  cases readOk <;> rfl

/-- C7: against a reachable counter the check allows exactly when the
incremented count stays within the limit and reports that count; a denial
reports a retry_after equal to the counter's remaining time-to-live,
positive within the window; an absent connection or a raising backend
fails open with allowed=true and count=0 (is_allowed is total, it never
raises). -/
theorem C7_rate_limiter_check (limit window : ℤ) (st : Option (ℤ × ℤ))
    (hw : 0 < window) (hst : ∀ p ∈ st, 0 < p.2) :
    ((is_allowed (RedisConn.ok st) limit window).allowed = true
        ↔ (rateLimitScript st window).1 ≤ limit) ∧
    (is_allowed (RedisConn.ok st) limit window).count = (rateLimitScript st window).1 ∧
    ((is_allowed (RedisConn.ok st) limit window).allowed = false →
      (is_allowed (RedisConn.ok st) limit window).retry_after = (rateLimitScript st window).2 ∧
      0 < (is_allowed (RedisConn.ok st) limit window).retry_after) ∧
    is_allowed RedisConn.down limit window = ⟨true, 0, 0⟩ ∧
    is_allowed RedisConn.failure limit window = ⟨true, 0, 0⟩ := by
  have hr2 : 0 < (rateLimitScript st window).2 := by
    cases st with
    | none => simpa [rateLimitScript] using hw
    | some p =>
      have hp := hst p rfl
      simp only [rateLimitScript]
      by_cases h1 : p.1 + 1 = 1 <;> simp [h1, hw, hp]
  refine ⟨?_, ?_, ?_, rfl, rfl⟩
  · by_cases h : (rateLimitScript st window).1 > limit <;>
      (simp [is_allowed, h]; try omega)
  · by_cases h : (rateLimitScript st window).1 > limit <;> simp [is_allowed, h]
  · intro hfalse
    by_cases h : (rateLimitScript st window).1 > limit
    · constructor
      · simp [is_allowed, h]
      · simpa [is_allowed, h] using hr2
    · exfalso
      simp [is_allowed, h] at hfalse

/-- C7 witness: with limit 10 and window 60, the 11th call (stored count
10, remaining ttl 42) is denied with positive retry_after. -/
theorem C7_rate_limiter_check_witness :
    (is_allowed (RedisConn.ok (some (10, 42))) 10 60).allowed = false ∧
    0 < (is_allowed (RedisConn.ok (some (10, 42))) 10 60).retry_after := by
  have h := C7_rate_limiter_check 10 60 (some (10, 42)) (by decide)
    (by intro p hp; simp only [Option.mem_def, Option.some.injEq] at hp; subst hp; decide)
  have hfalse : (is_allowed (RedisConn.ok (some (10, 42))) 10 60).allowed = false := by
    by_cases hb : (is_allowed (RedisConn.ok (some (10, 42))) 10 60).allowed = true
    · exact absurd (h.1.mp hb) (by decide)
    · simpa using hb
  exact ⟨hfalse, (h.2.2.1 hfalse).2⟩


/-- Setting a key makes it the value subsequent dict gets observe. -/
theorem lookup_dictSet_self (m : List (String × ℚ)) (k : String) (v : ℚ) :
    (dictSet m k v).lookup k = some v := by
  unfold dictSet
  by_cases h : (m.lookup k).isSome
  · rw [if_pos h]
    induction m with
    | nil => simp at h
    | cons p m ih =>
      obtain ⟨a, b⟩ := p
      by_cases hp : a = k
      · subst hp
        simp [List.lookup_cons]
      · have hpf : (a == k) = false := by simpa using hp
        have hkf : (k == a) = false := by simpa using Ne.symm hp
        simp only [List.lookup_cons, hkf] at h
        simpa [List.map_cons, hp, hpf, List.lookup_cons, hkf] using ih h
  · rw [if_neg h]
    have hnone : m.lookup k = none := by
      cases hm : m.lookup k with
      | none => rfl
      | some w => rw [hm] at h; simp at h
    clear h
    induction m with
    | nil => simp
    | cons p m ih =>
      obtain ⟨a, b⟩ := p
      by_cases hp : a = k
      · subst hp
        simp [List.lookup_cons] at hnone
      · have hpf : (a == k) = false := by simpa using hp
        have hkf : (k == a) = false := by simpa using Ne.symm hp
        simp only [List.lookup_cons, hkf] at hnone
        simpa [List.cons_append, List.lookup_cons, hp, hpf, hkf] using ih hnone

/-- Dict get after a dict set of the same key yields the set value. -/
theorem dictGetD_dictSet_self (m : List (String × ℚ)) (k : String) (v d : ℚ) :
    dictGetD (dictSet m k v) k d = v := by
  unfold dictGetD
  rw [lookup_dictSet_self]
  rfl

/-- Every agent reads the default weight off the default record. -/
theorem dictGetD_defaultWeights (k : String) :
    dictGetD defaultWeights k DEFAULT_WEIGHT = DEFAULT_WEIGHT := by
  have hval : ∀ l : List (String × ℚ), (∀ p ∈ l, p.2 = DEFAULT_WEIGHT) →
      (l.lookup k).getD DEFAULT_WEIGHT = DEFAULT_WEIGHT := by
    intro l
    induction l with
    | nil => intro _; rfl
    | cons p m ih =>
      intro hall
      obtain ⟨a, b⟩ := p
      have hb : b = DEFAULT_WEIGHT := hall (a, b) (by simp)
      by_cases hp : a = k
      · subst hp
        simp [List.lookup_cons, hb]
      · have hkf : (k == a) = false := by simpa using Ne.symm hp
        simp only [List.lookup_cons, hkf]
        exact ih (fun q hq => hall q (by simp [hq]))
  refine hval defaultWeights ?_
  intro p hp
  simp only [defaultWeights, List.mem_map] at hp
  obtain ⟨a, _, rfl⟩ := hp
  rfl

/-- Iterating feedback on a store tracks the scalar clamp iteration of
the targeted agent's weight. -/
theorem feedback_iter (ag : String) (acc : Bool) (r : ℤ) :
    ∀ (n : ℕ) (m : List (String × ℚ)),
      ∃ m', (fun st => (apply_feedback_memory st ag acc r).2)^[n] (some m) = some m' ∧
        dictGetD m' ag DEFAULT_WEIGHT
          = (fun w => clampWeight (w + ALPHA * compute_reward acc r))^[n]
              (dictGetD m ag DEFAULT_WEIGHT) := by
  intro n
  induction n with
  | zero => intro m; exact ⟨m, rfl, rfl⟩
  | succ n ih =>
    intro m
    rw [Function.iterate_succ_apply]
    have hstep : (apply_feedback_memory (some m) ag acc r).2
        = some (dictSet m ag
            (clampWeight (dictGetD m ag DEFAULT_WEIGHT + ALPHA * compute_reward acc r))) := rfl
    obtain ⟨m', hm', hw⟩ := ih (dictSet m ag
      (clampWeight (dictGetD m ag DEFAULT_WEIGHT + ALPHA * compute_reward acc r)))
    refine ⟨m', ?_, ?_⟩
    · simpa [hstep] using hm'
    · rw [hw, dictGetD_dictSet_self, Function.iterate_succ_apply]

/-- C5: update_weight returns clamp(old + delta, 0.1, 2.0) in both storage
modes regardless of whether persisting succeeded; composed with the reward
model (delta = 0.05 * (+rating if accepted, -rating if rejected)), one
rejected rating-5 feedback from weight 1.0 yields 0.75, 50 accepted
rating-5 feedbacks clamp at 2.0, and 50 rejected rating-5 feedbacks clamp
at 0.1. -/
theorem C5_update_weight_clamp_and_reward :
    (∀ (table : Option (List (String × ℚ))) (readOk writeOk : Bool) (agent : String) (delta : ℚ),
      (update_weight_dynamo table readOk writeOk agent delta).1
        = clampWeight (dictGetD (get_weights_dynamo table readOk).1 agent DEFAULT_WEIGHT + delta)) ∧
    (∀ (store : Option (List (String × ℚ))) (agent : String) (delta : ℚ),
      (update_weight_memory store agent delta).1
        = clampWeight (dictGetD (get_weights_memory store).1 agent DEFAULT_WEIGHT + delta)) ∧
    (apply_feedback_memory none "style" false 5).1 = 3 / 4 ∧
    dictGetD (get_weights_memory
        ((fun st => (apply_feedback_memory st "style" true 5).2)^[50] none)).1
      "style" DEFAULT_WEIGHT = 2 ∧
    dictGetD (get_weights_memory
        ((fun st => (apply_feedback_memory st "style" false 5).2)^[50] none)).1
      "style" DEFAULT_WEIGHT = 1 / 10 := by
  refine ⟨fun _ _ _ _ _ => rfl, fun _ _ _ => rfl, ?_, ?_, ?_⟩
  · have h1 : (apply_feedback_memory none "style" false 5).1
        = clampWeight (dictGetD defaultWeights "style" DEFAULT_WEIGHT
            + ALPHA * compute_reward false 5) := rfl
    rw [h1, dictGetD_defaultWeights]
    norm_num [clampWeight, MIN_WEIGHT, MAX_WEIGHT, DEFAULT_WEIGHT, ALPHA, compute_reward,
      min_def, max_def]
  · have h50 : (fun st => (apply_feedback_memory st "style" true 5).2)^[50] none
        = (fun st => (apply_feedback_memory st "style" true 5).2)^[49]
            ((fun st => (apply_feedback_memory st "style" true 5).2) none) := by
      rw [show (50 : ℕ) = 49 + 1 from rfl, Function.iterate_add_apply, Function.iterate_one]
    have hnone : (fun st => (apply_feedback_memory st "style" true 5).2) none
        = some (dictSet defaultWeights "style"
            (clampWeight (dictGetD defaultWeights "style" DEFAULT_WEIGHT
              + ALPHA * compute_reward true 5))) := rfl
    obtain ⟨m', hm', hw⟩ := feedback_iter "style" true 5 49
      (dictSet defaultWeights "style"
        (clampWeight (dictGetD defaultWeights "style" DEFAULT_WEIGHT
          + ALPHA * compute_reward true 5)))
    rw [h50, hnone, hm']
    show dictGetD m' "style" DEFAULT_WEIGHT = 2
    rw [hw, dictGetD_dictSet_self]
    have hs : (fun w => clampWeight (w + ALPHA * compute_reward true 5))
        = (fun w : ℚ => clampWeight (w + 1 / 4)) := by
      funext w; norm_num [ALPHA, compute_reward]
    have harg : clampWeight (dictGetD defaultWeights "style" DEFAULT_WEIGHT
        + ALPHA * compute_reward true 5) = 5 / 4 := by
      rw [dictGetD_defaultWeights]
      norm_num [clampWeight, MIN_WEIGHT, MAX_WEIGHT, DEFAULT_WEIGHT, ALPHA, compute_reward,
        min_def, max_def]
    rw [hs, harg]
    have e1 : clampWeight ((5 : ℚ) / 4 + 1 / 4) = 3 / 2 := by
      norm_num [clampWeight, MIN_WEIGHT, MAX_WEIGHT, min_def, max_def]
    have e2 : clampWeight ((3 : ℚ) / 2 + 1 / 4) = 7 / 4 := by
      norm_num [clampWeight, MIN_WEIGHT, MAX_WEIGHT, min_def, max_def]
    have e3 : clampWeight ((7 : ℚ) / 4 + 1 / 4) = 2 := by
      norm_num [clampWeight, MIN_WEIGHT, MAX_WEIGHT, min_def, max_def]
    have h3 : (fun w : ℚ => clampWeight (w + 1 / 4))^[3] ((5 : ℚ) / 4) = 2 := by
      simp only [show (3 : ℕ) = 1 + 1 + 1 from rfl, Function.iterate_add_apply,
        Function.iterate_one]
      rw [e1, e2, e3]
    have hfix : (fun w : ℚ => clampWeight (w + 1 / 4)) 2 = 2 := by
      norm_num [clampWeight, MIN_WEIGHT, MAX_WEIGHT, min_def, max_def]
    calc (fun w : ℚ => clampWeight (w + 1 / 4))^[49] ((5 : ℚ) / 4)
        = (fun w : ℚ => clampWeight (w + 1 / 4))^[46]
            ((fun w : ℚ => clampWeight (w + 1 / 4))^[3] ((5 : ℚ) / 4)) := by
          rw [← Function.iterate_add_apply]
      _ = 2 := by
          rw [h3]
          exact @Function.iterate_fixed ℚ (fun w : ℚ => clampWeight (w + 1 / 4)) 2 hfix 46
  · have h50 : (fun st => (apply_feedback_memory st "style" false 5).2)^[50] none
        = (fun st => (apply_feedback_memory st "style" false 5).2)^[49]
            ((fun st => (apply_feedback_memory st "style" false 5).2) none) := by
      rw [show (50 : ℕ) = 49 + 1 from rfl, Function.iterate_add_apply, Function.iterate_one]
    have hnone : (fun st => (apply_feedback_memory st "style" false 5).2) none
        = some (dictSet defaultWeights "style"
            (clampWeight (dictGetD defaultWeights "style" DEFAULT_WEIGHT
              + ALPHA * compute_reward false 5))) := rfl
    obtain ⟨m', hm', hw⟩ := feedback_iter "style" false 5 49
      (dictSet defaultWeights "style"
        (clampWeight (dictGetD defaultWeights "style" DEFAULT_WEIGHT
          + ALPHA * compute_reward false 5)))
    rw [h50, hnone, hm']
    show dictGetD m' "style" DEFAULT_WEIGHT = 1 / 10
    rw [hw, dictGetD_dictSet_self]
    have hs : (fun w => clampWeight (w + ALPHA * compute_reward false 5))
        = (fun w : ℚ => clampWeight (w + -(1 / 4))) := by
      funext w; norm_num [ALPHA, compute_reward]
    have harg : clampWeight (dictGetD defaultWeights "style" DEFAULT_WEIGHT
        + ALPHA * compute_reward false 5) = 3 / 4 := by
      rw [dictGetD_defaultWeights]
      norm_num [clampWeight, MIN_WEIGHT, MAX_WEIGHT, DEFAULT_WEIGHT, ALPHA, compute_reward,
        min_def, max_def]
    rw [hs, harg]
    have e1 : clampWeight ((3 : ℚ) / 4 + -(1 / 4)) = 1 / 2 := by
      norm_num [clampWeight, MIN_WEIGHT, MAX_WEIGHT, min_def, max_def]
    have e2 : clampWeight ((1 : ℚ) / 2 + -(1 / 4)) = 1 / 4 := by
      norm_num [clampWeight, MIN_WEIGHT, MAX_WEIGHT, min_def, max_def]
    have e3 : clampWeight ((1 : ℚ) / 4 + -(1 / 4)) = 1 / 10 := by
      norm_num [clampWeight, MIN_WEIGHT, MAX_WEIGHT, min_def, max_def]
    have h3 : (fun w : ℚ => clampWeight (w + -(1 / 4)))^[3] ((3 : ℚ) / 4) = 1 / 10 := by
      simp only [show (3 : ℕ) = 1 + 1 + 1 from rfl, Function.iterate_add_apply,
        Function.iterate_one]
      rw [e1, e2, e3]
    have hfix : (fun w : ℚ => clampWeight (w + -(1 / 4))) (1 / 10) = 1 / 10 := by
      norm_num [clampWeight, MIN_WEIGHT, MAX_WEIGHT, min_def, max_def]
    calc (fun w : ℚ => clampWeight (w + -(1 / 4)))^[49] ((3 : ℚ) / 4)
        = (fun w : ℚ => clampWeight (w + -(1 / 4)))^[46]
            ((fun w : ℚ => clampWeight (w + -(1 / 4)))^[3] ((3 : ℚ) / 4)) := by
          rw [← Function.iterate_add_apply]
      _ = 1 / 10 := by
          rw [h3]
          exact @Function.iterate_fixed ℚ (fun w : ℚ => clampWeight (w + -(1 / 4)))
            (1 / 10) hfix 46

/-- C2: on a cache hit, analyze returns the stored suggestions, weights
and raw agent results completely unchanged — independent of the live
weight store and of any dispatch outcome — changing only analysis_id
(freshly generated), request_id (the caller's) and from_cache = true. -/
theorem C2_cache_hit_unchanged (sha256hex : String → String)
    (cache : String → Option AnalysisResult)
    (lw lw' : List (String × ℚ)) (dispatched dispatched' : List AgentResult)
    (code fresh req : String) (cached : AnalysisResult)
    (hhit : cache (compute_code_hash sha256hex code) = some cached) :
    analyze sha256hex cache lw dispatched code fresh req
      = { analysis_id := fresh, code_hash := compute_code_hash sha256hex code,
          from_cache := true, suggestions := cached.suggestions,
          agent_weights := cached.agent_weights, agent_results := cached.agent_results,
          request_id := req } ∧
    analyze sha256hex cache lw dispatched code fresh req
      = analyze sha256hex cache lw' dispatched' code fresh req := by
  constructor <;> simp [analyze, hhit]

/-- C2 witness: a concrete cache hit keeps the stored payload and flips
only the identifiers and the from_cache flag. -/
theorem C2_cache_hit_unchanged_witness :
    analyze id (fun _ => some ⟨"old", "h", false, [], [("style", 1)], none, "oldreq"⟩)
        [] [] "x" "fresh" "req"
      = ⟨"fresh", compute_code_hash id "x", true, [], [("style", 1)], none, "req"⟩ :=
  (C2_cache_hit_unchanged id
    (fun _ => some ⟨"old", "h", false, [], [("style", 1)], none, "oldreq"⟩)
    [] [] [] [] "x" "fresh" "req"
    ⟨"old", "h", false, [], [("style", 1)], none, "oldreq"⟩ rfl).1

/-- Membership in a stable ranked insertion comes from the inserted
element or the base list. -/
theorem mem_insRanked (x y : Suggestion) : ∀ l, y ∈ insRanked x l → y = x ∨ y ∈ l := by
  intro l
  induction l with
  | nil =>
    intro h
    simp only [insRanked, List.mem_singleton] at h
    exact Or.inl h
  | cons z zs ih =>
    intro h
    by_cases hgt : rankGT z x
    · simp only [insRanked, if_pos hgt, List.mem_cons] at h
      rcases h with h | h
      · exact Or.inr (by simp [h])
      · rcases ih h with h' | h'
        · exact Or.inl h'
        · exact Or.inr (by simp [h'])
    · simp only [insRanked, if_neg hgt, List.mem_cons] at h
      rcases h with h | h
      · exact Or.inl h
      · exact Or.inr (by simpa using h)

/-- The ranking sort does not invent suggestions. -/
theorem mem_rankSort (y : Suggestion) : ∀ l, y ∈ rankSort l → y ∈ l := by
  intro l
  induction l with
  | nil => intro h; simp [rankSort] at h
  | cons x xs ih =>
    intro h
    rcases mem_insRanked x y (rankSort xs) h with h' | h'
    · simp [h']
    · simp [ih h']

/-- Every value surviving the dedup loop is a stored value or an input. -/
theorem dedupGo_values :
    ∀ (l : List Suggestion) (seen : List (String × Suggestion)) (p : String × Suggestion),
      p ∈ dedupGo seen l → p.2 ∈ seen.map Prod.snd ∨ p.2 ∈ l := by
  intro l
  induction l with
  | nil =>
    intro seen p hp
    exact Or.inl (List.mem_map_of_mem Prod.snd hp)
  | cons s rest ih =>
    intro seen p hp
    simp only [dedupGo] at hp
    rcases hcase : (seen.lookup (get_dedup_key s)) with _ | e
    · rw [hcase] at hp
      rcases ih (seen ++ [(get_dedup_key s, s)]) p hp with h | h
      · rw [List.map_append, List.mem_append] at h
        rcases h with h | h
        · exact Or.inl h
        · simp only [List.map_cons, List.map_nil, List.mem_singleton] at h
          exact Or.inr (by simp [h])
      · exact Or.inr (by simp [h])
    · rw [hcase] at hp
      dsimp only at hp
      by_cases hb : is_better s e
      · rw [if_pos hb] at hp
        rcases ih (dictUpdate seen (get_dedup_key s) s) p hp with h | h
        · rw [List.mem_map] at h
          obtain ⟨q, hq, hqv⟩ := h
          simp only [dictUpdate, List.mem_map] at hq
          obtain ⟨q0, hq0, hq0v⟩ := hq
          by_cases hk : q0.1 == get_dedup_key s
          · rw [if_pos hk] at hq0v
            subst hq0v
            exact Or.inr (by simp [← hqv])
          · rw [if_neg hk] at hq0v
            subst hq0v
            exact Or.inl (by rw [← hqv]; exact List.mem_map_of_mem Prod.snd hq0)
        · exact Or.inr (by simp [h])
      · rw [if_neg hb] at hp
        rcases ih seen p hp with h | h
        · exact Or.inl h
        · exact Or.inr (by simp [h])

/-- Deduplication keeps only suggestions from the input list. -/
theorem mem_deduplicate (t : Suggestion) (l : List Suggestion) :
    t ∈ deduplicate l → t ∈ l := by
  intro ht
  simp only [deduplicate, List.mem_map] at ht
  obtain ⟨p, hp, rfl⟩ := ht
  rcases dedupGo_values l [] p hp with h | h
  · simp at h
  · exact h

/-- C4 counterexample: merge's scoring rounds to four decimal places, so
for severity 1, confidence 0.12345 and weight 1 the stored score (0.0247)
differs from the plain product severity/5 * confidence * weight
(0.024690) the claim states. -/
theorem C4_counterexample :
    (score_suggestion ⟨"s1", "style", "t", "m", 1, 12345 / 100000, 0⟩ 1).score
      ≠ (1 : ℚ) / 5 * (12345 / 100000) * 1 := by
  norm_num [score_suggestion, pyRound4]

/-- C4 (amended): every suggestion merge scores carries
score = round((severity/5) * confidence * weight, 4) — the product rounded
to four decimal places — with the weight defaulting to 1.0 when the agent
is absent from the weight map; severity 5, confidence 1.0, weight 1.0
still gives exactly 1.0 and severity 1, confidence 0.7, weight 1.0 gives
exactly 0.14, as the rounding is the identity there. -/
theorem C4_score_rounded (results : List AgentResult) (weights : List (String × ℚ))
    (aid ch rid : String) (fc : Bool) :
    (∀ t ∈ (merge results weights aid ch rid fc).suggestions,
      ∃ ar ∈ results, ∃ s ∈ ar.suggestions,
        t = score_suggestion s (dictGetD weights ar.agent 1)) ∧
    (∀ (s : Suggestion) (w : ℚ),
      (score_suggestion s w).score = pyRound4 ((s.severity : ℚ) / 5 * s.confidence * w)) ∧
    (∀ k, weights.lookup k = none → dictGetD weights k 1 = 1) ∧
    (∀ (s : Suggestion) (w : ℚ), s.severity = 5 → s.confidence = 1 → w = 1 →
      (score_suggestion s w).score = 1) ∧
    (∀ (s : Suggestion) (w : ℚ), s.severity = 1 → s.confidence = 7 / 10 → w = 1 →
      (score_suggestion s w).score = 7 / 50) := by
  refine ⟨?_, fun s w => rfl, ?_, ?_, ?_⟩
  · intro t ht
    have ht' : t ∈ rankSort (deduplicate (results.flatMap
        (fun ar => ar.suggestions.map
          (fun s => score_suggestion s (dictGetD weights ar.agent 1))))) := ht
    have h1 := mem_rankSort t _ ht'
    have h2 := mem_deduplicate t _ h1
    rw [List.mem_flatMap] at h2
    obtain ⟨ar, har, hmem⟩ := h2
    rw [List.mem_map] at hmem
    obtain ⟨s, hs, hv⟩ := hmem
    exact ⟨ar, har, s, hs, hv.symm⟩
  · intro k hk
    unfold dictGetD
    rw [hk]
    rfl
  · intro s w h5 h1 hw
    subst hw
    show pyRound4 ((s.severity : ℚ) / 5 * s.confidence * 1) = 1
    rw [h5, h1]
    norm_num [pyRound4]
  · intro s w h1 h7 hw
    subst hw
    show pyRound4 ((s.severity : ℚ) / 5 * s.confidence * 1) = 7 / 50
    rw [h1, h7]
    norm_num [pyRound4]

/-- C4 witness: the spec's second scoring example, severity 1 with
confidence 0.7 at weight 1, evaluates to exactly 0.14. -/
theorem C4_score_rounded_witness :
    (score_suggestion ⟨"id1", "style", "t", "m", 1, 7 / 10, 0⟩ 1).score = 7 / 50 :=
  (C4_score_rounded [] [] "" "" "" false).2.2.2.2 ⟨"id1", "style", "t", "m", 1, 7 / 10, 0⟩ 1
    rfl rfl rfl

/-- C8: when one worker times out (and the global timeout does not
expire), that worker's slot holds exactly the empty-suggestions result
with error "timeout" and took_ms equal to the 8-second bound, while every
other slot is exactly what dispatch produces when the slow worker's
behavior is replaced by anything else — failure isolation is structural. -/
theorem C8_timeout_isolation (f g : String → WorkerOutcome) (a : String) (i : ℕ)
    (d : AgentResult) (hf : f a = WorkerOutcome.timeout)
    (hfg : ∀ b, b ≠ a → f b = g b) (hi : i < 5) :
    (AGENTS.getD i "" = a →
      (dispatch f false).getD i d = ⟨a, [], 8000, some "timeout"⟩) ∧
    (AGENTS.getD i "" ≠ a →
      (dispatch f false).getD i d = (dispatch g false).getD i d) := by
  have key : ∀ (h : String → WorkerOutcome) (j : ℕ), j < 5 →
      (dispatch h false).getD j d = run_agent (AGENTS.getD j "") (h (AGENTS.getD j "")) := by
    intro h j hj
    interval_cases j <;> rfl
  refine ⟨fun ha => ?_, fun hne => ?_⟩
  · rw [key f i hi, ha, hf]
    rfl
  · rw [key f i hi, key g i hi, hfg _ hne]

/-- C8 witness: with the naming worker timing out and every other worker
completing normally, slot 1 is the timeout result and slot 0 agrees with
the dispatch in which no worker times out. -/
theorem C8_timeout_isolation_witness :
    (dispatch (fun b => if b = "naming" then WorkerOutcome.timeout
        else WorkerOutcome.completed [] 1 none) false).getD 1 ⟨"", [], 0, none⟩
      = ⟨"naming", [], 8000, some "timeout"⟩ ∧
    (dispatch (fun b => if b = "naming" then WorkerOutcome.timeout
        else WorkerOutcome.completed [] 1 none) false).getD 0 ⟨"", [], 0, none⟩
      = (dispatch (fun _ => WorkerOutcome.completed [] 1 none) false).getD 0
          ⟨"", [], 0, none⟩ := by
  constructor
  · exact (C8_timeout_isolation
      (fun b => if b = "naming" then WorkerOutcome.timeout
        else WorkerOutcome.completed [] 1 none)
      (fun _ => WorkerOutcome.completed [] 1 none) "naming" 1 ⟨"", [], 0, none⟩
      (by simp) (fun b hb => by simp [hb]) (by norm_num)).1 rfl
  · exact (C8_timeout_isolation
      (fun b => if b = "naming" then WorkerOutcome.timeout
        else WorkerOutcome.completed [] 1 none)
      (fun _ => WorkerOutcome.completed [] 1 none) "naming" 0 ⟨"", [], 0, none⟩
      (by simp) (fun b hb => by simp [hb]) (by norm_num)).2 (by simp [AGENTS])

/-- Characterization of _is_better as the strict lexicographic comparison
on (severity, confidence, static agent priority). -/
theorem is_better_iff (n e : Suggestion) :
    is_better n e = true
      ↔ (e.severity < n.severity
          ∨ (n.severity = e.severity ∧ e.confidence < n.confidence)
          ∨ (n.severity = e.severity ∧ n.confidence = e.confidence
              ∧ agentPriority e.agent < agentPriority n.agent)) := by
  unfold is_better
  by_cases h1 : n.severity = e.severity
  · rw [if_neg (not_not_intro h1)]
    by_cases h2 : n.confidence = e.confidence
    · rw [if_neg (not_not_intro h2)]
      simp only [decide_eq_true_eq]
      constructor
      · intro h; exact Or.inr (Or.inr ⟨h1, h2, h⟩)
      · rintro (h | ⟨_, h⟩ | ⟨_, _, h⟩)
        · omega
        · exact absurd h (by rw [h2]; exact lt_irrefl _)
        · exact h
    · rw [if_pos h2]
      simp only [decide_eq_true_eq]
      constructor
      · intro h; exact Or.inr (Or.inl ⟨h1, h⟩)
      · rintro (h | ⟨_, h⟩ | ⟨_, hc, _⟩)
        · omega
        · exact h
        · exact absurd hc h2
  · rw [if_pos h1]
    simp only [decide_eq_true_eq]
    constructor
    · intro h; exact Or.inl h
    · rintro (h | ⟨h, _⟩ | ⟨h, _⟩)
      · exact h
      · exact absurd h h1
      · exact absurd h h1

/-- The strict comparison is irreflexive. -/
theorem is_better_irrefl (a : Suggestion) : is_better a a = false := by
  simp [is_better]

/-- The strict comparison is transitive. -/
theorem is_better_trans (a b c : Suggestion) (h1 : is_better a b = true)
    (h2 : is_better b c = true) : is_better a c = true := by
  rw [is_better_iff] at h1 h2 ⊢
  rcases h1 with h1 | ⟨e1, f1⟩ | ⟨e1, f1, g1⟩ <;>
    rcases h2 with h2 | ⟨e2, f2⟩ | ⟨e2, f2, g2⟩ <;>
    first
      | exact Or.inl (by omega)
      | exact Or.inr (Or.inl ⟨by omega, by linarith⟩)
      | exact Or.inr (Or.inr ⟨by omega, by linarith, by omega⟩)

/-- Two suggestions comparing equal on all three components compare the
same way against any third suggestion. -/
theorem is_better_congr_left (a b c : Suggestion) (h1 : a.severity = b.severity)
    (h2 : a.confidence = b.confidence) (h3 : agentPriority a.agent = agentPriority b.agent) :
    is_better a c = is_better b c := by
  have hiff : is_better a c = true ↔ is_better b c = true := by
    rw [is_better_iff, is_better_iff, h1, h2, h3]
  cases hab : is_better a c <;> cases hbc : is_better b c <;> simp_all

/-- Totality: either one side strictly beats the other, or the two agree
on severity, confidence, and priority. -/
theorem is_better_total (a b : Suggestion) :
    is_better a b = true ∨ is_better b a = true
      ∨ (a.severity = b.severity ∧ a.confidence = b.confidence
          ∧ agentPriority a.agent = agentPriority b.agent) := by
  rw [is_better_iff, is_better_iff]
  rcases lt_trichotomy b.severity a.severity with h | h | h
  · exact Or.inl (Or.inl h)
  · rcases lt_trichotomy b.confidence a.confidence with h2 | h2 | h2
    · exact Or.inl (Or.inr (Or.inl ⟨h.symm, h2⟩))
    · rcases lt_trichotomy (agentPriority b.agent) (agentPriority a.agent) with h3 | h3 | h3
      · exact Or.inl (Or.inr (Or.inr ⟨h.symm, h2.symm, h3⟩))
      · exact Or.inr (Or.inr ⟨h.symm, h2.symm, h3.symm⟩)
      · exact Or.inr (Or.inl (Or.inr (Or.inr ⟨h, h2, h3⟩)))
    · exact Or.inr (Or.inl (Or.inr (Or.inl ⟨h, h2⟩)))
  · exact Or.inr (Or.inl (Or.inl h))

/-- A strict win followed by a non-win transfers: if s beats e but does
not beat p, then e does not beat p either. -/
theorem is_better_compat (s e p : Suggestion) (hse : is_better s e = true)
    (hsp : is_better s p = false) : is_better e p = false := by
  by_contra hc
  have hep : is_better e p = true := by simpa using hc
  have := is_better_trans s e p hse hep
  rw [this] at hsp
  cases hsp

/-- Non-wins compose: if s does not beat e and e does not beat p, then s
does not beat p. -/
theorem is_better_false_trans (a b c : Suggestion) (h1 : is_better a b = false)
    (h2 : is_better b c = false) : is_better a c = false := by
  by_contra hc
  have hac : is_better a c = true := by simpa using hc
  rcases is_better_total a b with hab | hba | heq
  · rw [hab] at h1; cases h1
  · have := is_better_trans b a c hba hac
    rw [this] at h2; cases h2
  · obtain ⟨e1, e2, e3⟩ := heq
    have : is_better b c = true := by
      rw [← is_better_congr_left a b c e1 e2 e3]; exact hac
    rw [this] at h2; cases h2

/-- Updating a value in place leaves the key sequence unchanged. -/
theorem keys_dictUpdate (seen : List (String × Suggestion)) (k : String) (s : Suggestion) :
    (dictUpdate seen k s).map Prod.fst = seen.map Prod.fst := by
  unfold dictUpdate
  rw [List.map_map]
  apply List.map_congr_left
  intro q _
  by_cases hq : q.1 = k <;> simp [hq]

/-- A successful lookup names a member of the association list. -/
theorem mem_of_lookup_some (seen : List (String × Suggestion)) (k : String) (e : Suggestion)
    (h : seen.lookup k = some e) : (k, e) ∈ seen := by
  obtain ⟨l₁, l₂, rfl, -⟩ := List.lookup_eq_some_iff.mp h
  simp

/-- A failed lookup means the key is absent. -/
theorem not_mem_keys_of_lookup_none (seen : List (String × Suggestion)) (k : String)
    (h : seen.lookup k = none) : k ∉ seen.map Prod.fst := by
  intro hk
  rw [List.mem_map] at hk
  obtain ⟨q, hq, hqk⟩ := hk
  have := List.lookup_eq_none_iff.mp h q hq
  rw [hqk] at this
  simp at this

/-- With distinct keys, membership determines the lookup result. -/
theorem lookup_eq_of_mem_nodup (k : String) (v : Suggestion) :
    ∀ (seen : List (String × Suggestion)), (seen.map Prod.fst).Nodup →
      (k, v) ∈ seen → seen.lookup k = some v := by
  intro seen
  induction seen with
  | nil => intro _ hmem; simp at hmem
  | cons q rest ih =>
    intro hnd hmem
    obtain ⟨a, b⟩ := q
    rcases List.mem_cons.mp hmem with heq | hmem'
    · injection heq with h1 h2
      subst h1
      subst h2
      exact List.lookup_cons_self
    · have hka : a ≠ k := by
        intro h
        subst h
        have : a ∈ rest.map Prod.fst := List.mem_map_of_mem Prod.fst hmem'
        simp only [List.map_cons] at hnd
        exact (List.nodup_cons.mp hnd).1 this
      have hkf : (k == a) = false := by simpa using Ne.symm hka
      rw [List.lookup_cons, hkf]
      exact ih (by simp only [List.map_cons] at hnd; exact (List.nodup_cons.mp hnd).2) hmem'

/-- Lookup of a member's own key in a distinct-key list finds its value. -/
theorem lookup_fst_eq_of_mem_nodup (seen : List (String × Suggestion))
    (hnd : (seen.map Prod.fst).Nodup) (q : String × Suggestion) (hq : q ∈ seen) :
    seen.lookup q.1 = some q.2 := by
  obtain ⟨a, b⟩ := q
  exact lookup_eq_of_mem_nodup a b seen hnd hq

/-- Main invariant of the dedup loop: every surviving entry is keyed by
its own dedup key, and is beaten neither by any same-bucket member of the
remaining input nor by any same-key entry already stored. -/
theorem dedupGo_max :
    ∀ (l : List Suggestion) (seen : List (String × Suggestion)),
      (seen.map Prod.fst).Nodup →
      (∀ q ∈ seen, get_dedup_key q.2 = q.1) →
      ∀ p ∈ dedupGo seen l,
        (∀ s ∈ l, get_dedup_key s = p.1 → is_better s p.2 = false) ∧
        (∀ q ∈ seen, q.1 = p.1 → is_better q.2 p.2 = false) ∧
        get_dedup_key p.2 = p.1 := by
  intro l
  induction l with
  | nil =>
    intro seen hnd hcons p hp
    refine ⟨by simp, ?_, hcons p hp⟩
    intro q hq hqp
    have h1 := lookup_fst_eq_of_mem_nodup seen hnd q hq
    have h2 := lookup_fst_eq_of_mem_nodup seen hnd p hp
    rw [hqp] at h1
    have hv : q.2 = p.2 := by
      have := h1.symm.trans h2
      injection this
    rw [hv]
    exact is_better_irrefl p.2
  | cons s rest ih =>
    intro seen hnd hcons p hp
    simp only [dedupGo] at hp
    rcases hcase : seen.lookup (get_dedup_key s) with _ | e
    · rw [hcase] at hp
      have hnd' : ((seen ++ [(get_dedup_key s, s)]).map Prod.fst).Nodup := by
        rw [List.map_append, List.nodup_append]
        refine ⟨hnd, by simp, ?_⟩
        intro a ha hb
        simp only [List.map_cons, List.map_nil, List.mem_singleton] at hb
        subst hb
        exact not_mem_keys_of_lookup_none seen _ hcase ha
      have hcons' : ∀ q ∈ seen ++ [(get_dedup_key s, s)], get_dedup_key q.2 = q.1 := by
        intro q hq
        rcases List.mem_append.mp hq with h | h
        · exact hcons q h
        · simp only [List.mem_singleton] at h
          subst h
          rfl
      obtain ⟨c1, c2, c3⟩ := ih (seen ++ [(get_dedup_key s, s)]) hnd' hcons' p hp
      refine ⟨?_, ?_, c3⟩
      · intro s' hs' hk
        rcases List.mem_cons.mp hs' with rfl | h
        · exact c2 (get_dedup_key s', s') (by simp) hk
        · exact c1 s' h hk
      · intro q hq hqp
        exact c2 q (List.mem_append_left _ hq) hqp
    · rw [hcase] at hp
      dsimp only at hp
      have hmem_e := mem_of_lookup_some seen _ e hcase
      by_cases hb : is_better s e = true
      · rw [if_pos hb] at hp
        have hnd' : ((dictUpdate seen (get_dedup_key s) s).map Prod.fst).Nodup := by
          rw [keys_dictUpdate]
          exact hnd
        have hcons' : ∀ q ∈ dictUpdate seen (get_dedup_key s) s, get_dedup_key q.2 = q.1 := by
          intro q hq
          simp only [dictUpdate, List.mem_map] at hq
          obtain ⟨q0, hq0, rfl⟩ := hq
          by_cases hqk : q0.1 == get_dedup_key s
          · rw [if_pos hqk]
            show get_dedup_key s = q0.1
            have hq0k : q0.1 = get_dedup_key s := by simpa using hqk
            rw [hq0k]
          · rw [if_neg hqk]
            exact hcons q0 hq0
        have hmem_upd : (get_dedup_key s, s) ∈ dictUpdate seen (get_dedup_key s) s := by
          simp only [dictUpdate, List.mem_map]
          exact ⟨(get_dedup_key s, e), hmem_e, by rw [if_pos (by simp)]⟩
        obtain ⟨c1, c2, c3⟩ := ih (dictUpdate seen (get_dedup_key s) s) hnd' hcons' p hp
        refine ⟨?_, ?_, c3⟩
        · intro s' hs' hk
          rcases List.mem_cons.mp hs' with rfl | h
          · exact c2 (get_dedup_key s', s') hmem_upd hk
          · exact c1 s' h hk
        · intro q hq hqp
          by_cases hqk : q.1 = get_dedup_key s
          · have hlq := lookup_fst_eq_of_mem_nodup seen hnd q hq
            rw [hqk] at hlq
            have hqe : q.2 = e := by
              have := hlq.symm.trans hcase
              injection this
            have hs_p : is_better s p.2 = false :=
              c2 (get_dedup_key s, s) hmem_upd (by rw [← hqk, hqp])
            rw [hqe]
            exact is_better_compat s e p.2 hb hs_p
          · have hq' : q ∈ dictUpdate seen (get_dedup_key s) s := by
              simp only [dictUpdate, List.mem_map]
              exact ⟨q, hq, by rw [if_neg (by simpa using hqk)]⟩
            exact c2 q hq' hqp
      · rw [if_neg hb] at hp
        obtain ⟨c1, c2, c3⟩ := ih seen hnd hcons p hp
        refine ⟨?_, ?_, c3⟩
        · intro s' hs' hk
          rcases List.mem_cons.mp hs' with rfl | h
          · have he_p : is_better e p.2 = false := c2 (get_dedup_key s', e) hmem_e hk
            exact is_better_false_trans s' e p.2 (by simpa using hb) he_p
          · exact c1 s' h hk
        · exact c2

/-- The dedup loop keeps the stored keys distinct. -/
theorem dedupGo_keys_nodup :
    ∀ (l : List Suggestion) (seen : List (String × Suggestion)),
      (seen.map Prod.fst).Nodup → ((dedupGo seen l).map Prod.fst).Nodup := by
  intro l
  induction l with
  | nil => intro seen h; exact h
  | cons s rest ih =>
    intro seen hnd
    simp only [dedupGo]
    rcases hcase : seen.lookup (get_dedup_key s) with _ | e
    · apply ih
      rw [List.map_append, List.nodup_append]
      refine ⟨hnd, by simp, ?_⟩
      intro a ha hb
      simp only [List.map_cons, List.map_nil, List.mem_singleton] at hb
      subst hb
      exact not_mem_keys_of_lookup_none seen _ hcase ha
    · dsimp only
      by_cases hb : is_better s e = true
      · rw [if_pos hb]
        apply ih
        rw [keys_dictUpdate]
        exact hnd
      · rw [if_neg hb]
        exact ih seen hnd

/-- Stored keys survive the rest of the dedup loop. -/
theorem dedupGo_keys_mono :
    ∀ (l : List Suggestion) (seen : List (String × Suggestion)) (k : String),
      k ∈ seen.map Prod.fst → k ∈ (dedupGo seen l).map Prod.fst := by
  intro l
  induction l with
  | nil => intro _ k h; exact h
  | cons s rest ih =>
    intro seen k hk
    simp only [dedupGo]
    rcases hcase : seen.lookup (get_dedup_key s) with _ | e
    · exact ih _ k (by rw [List.map_append]; exact List.mem_append_left _ hk)
    · dsimp only
      by_cases hb : is_better s e = true
      · rw [if_pos hb]
        exact ih _ k (by rw [keys_dictUpdate]; exact hk)
      · rw [if_neg hb]
        exact ih seen k hk

/-- Every input suggestion's bucket key ends up among the stored keys. -/
theorem dedupGo_keys_cover :
    ∀ (l : List Suggestion) (seen : List (String × Suggestion)), ∀ s ∈ l,
      get_dedup_key s ∈ (dedupGo seen l).map Prod.fst := by
  intro l
  induction l with
  | nil => intro _ s h; simp at h
  | cons s0 rest ih =>
    intro seen s hs
    simp only [dedupGo]
    rcases List.mem_cons.mp hs with rfl | h
    · rcases hcase : seen.lookup (get_dedup_key s) with _ | e
      · exact dedupGo_keys_mono rest _ _
          (by rw [List.map_append]; exact List.mem_append_right _ (by simp))
      · dsimp only
        by_cases hb : is_better s e = true
        · rw [if_pos hb]
          apply dedupGo_keys_mono
          rw [keys_dictUpdate]
          exact List.mem_map_of_mem Prod.fst (mem_of_lookup_some seen _ e hcase)
        · rw [if_neg hb]
          exact dedupGo_keys_mono rest seen _
            (List.mem_map_of_mem Prod.fst (mem_of_lookup_some seen _ e hcase))
    · rcases hcase : seen.lookup (get_dedup_key s0) with _ | e
      · exact ih _ s h
      · dsimp only
        by_cases hb : is_better s0 e = true
        · rw [if_pos hb]
          exact ih _ s h
        · rw [if_neg hb]
          exact ih seen s h


/-- C3: the dedup key of every suggestion follows the ordered canonical
cases on its normalized message (duplicate-operation phrasing, including
the markers twice and same arguments; unused+import; unused+variable;
docstring+missing; otherwise the normalized text verbatim); within each
bucket exactly one suggestion is kept, drawn from the bucket and beaten by
no bucket member under the strict order higher severity, then higher
confidence, then higher static priority with minimalism(5) > security(4) >
naming(3) > docstring(2) > style(1). -/
theorem C3_dedup_buckets :
    (∀ s : Suggestion,
      (dupPhrase (normalize_message s.message) = true →
        get_dedup_key s = "duplicate_operation") ∧
      (dupPhrase (normalize_message s.message) = false →
        (strContains (normalize_message s.message) "unused"
          && strContains (normalize_message s.message) "import") = true →
        get_dedup_key s = "unused_import") ∧
      (dupPhrase (normalize_message s.message) = false →
        (strContains (normalize_message s.message) "unused"
          && strContains (normalize_message s.message) "import") = false →
        (strContains (normalize_message s.message) "unused"
          && strContains (normalize_message s.message) "variable") = true →
        get_dedup_key s = "unused_variable") ∧
      (dupPhrase (normalize_message s.message) = false →
        (strContains (normalize_message s.message) "unused"
          && strContains (normalize_message s.message) "import") = false →
        (strContains (normalize_message s.message) "unused"
          && strContains (normalize_message s.message) "variable") = false →
        (strContains (normalize_message s.message) "docstring"
          && (strContains (normalize_message s.message) "missing"
            || strContains (normalize_message s.message) "no docstring")) = true →
        get_dedup_key s = "missing_docstring") ∧
      (dupPhrase (normalize_message s.message) = false →
        (strContains (normalize_message s.message) "unused"
          && strContains (normalize_message s.message) "import") = false →
        (strContains (normalize_message s.message) "unused"
          && strContains (normalize_message s.message) "variable") = false →
        (strContains (normalize_message s.message) "docstring"
          && (strContains (normalize_message s.message) "missing"
            || strContains (normalize_message s.message) "no docstring")) = false →
        get_dedup_key s = normalize_message s.message)) ∧
    (∀ n e : Suggestion,
      is_better n e = true
        ↔ (e.severity < n.severity
            ∨ (n.severity = e.severity ∧ e.confidence < n.confidence)
            ∨ (n.severity = e.severity ∧ n.confidence = e.confidence
                ∧ agentPriority e.agent < agentPriority n.agent))) ∧
    agentPriority "minimalism" = 5 ∧ agentPriority "security" = 4 ∧
    agentPriority "naming" = 3 ∧ agentPriority "docstring" = 2 ∧
    agentPriority "style" = 1 ∧
    (∀ l : List Suggestion,
      (∀ t ∈ deduplicate l, t ∈ l) ∧
      ((deduplicate l).map get_dedup_key).Nodup ∧
      (∀ s ∈ l, ∃ t ∈ deduplicate l, get_dedup_key t = get_dedup_key s) ∧
      (∀ t ∈ deduplicate l, ∀ s ∈ l,
        get_dedup_key s = get_dedup_key t → is_better s t = false)) := by
  have hany : ∀ key : String,
      dupMarkers.any (fun w => strContains key w) = dupPhrase key := by
    intro key
    simp [dupMarkers, dupPhrase, Bool.or_assoc]
  refine ⟨?_, is_better_iff, by decide, by decide, by decide, by decide, by decide, ?_⟩
  · intro s
    refine ⟨?_, ?_, ?_, ?_, ?_⟩
    · intro h
      simp [get_dedup_key, hany, h]
    · intro h0 h1
      simp [get_dedup_key, hany, h0, h1]
    · intro h0 h1 h2
      simp [get_dedup_key, hany, h0, h1, h2]
    · intro h0 h1 h2 h3
      simp [get_dedup_key, hany, h0, h1, h2, h3]
    · intro h0 h1 h2 h3
      simp [get_dedup_key, hany, h0, h1, h2, h3]
  · intro l
    have hmax := dedupGo_max l [] (by simp) (by simp)
    have hcons : ∀ p ∈ dedupGo [] l, get_dedup_key p.2 = p.1 := fun p hp => (hmax p hp).2.2
    refine ⟨fun t => mem_deduplicate t l, ?_, ?_, ?_⟩
    · have hmapeq : (deduplicate l).map get_dedup_key = (dedupGo [] l).map Prod.fst := by
        unfold deduplicate
        rw [List.map_map]
        exact List.map_congr_left (fun p hp => hcons p hp)
      rw [hmapeq]
      exact dedupGo_keys_nodup l [] (by simp)
    · intro s hs
      have hk := dedupGo_keys_cover l [] s hs
      rw [List.mem_map] at hk
      obtain ⟨p, hp, hpk⟩ := hk
      refine ⟨p.2, ?_, ?_⟩
      · exact List.mem_map_of_mem Prod.snd hp
      · rw [hcons p hp, hpk]
    · intro t ht s hs hk
      simp only [deduplicate, List.mem_map] at ht
      obtain ⟨p, hp, rfl⟩ := ht
      exact (hmax p hp).1 s hs (by rw [hk, hcons p hp])

/-- C3 witness: a called-twice phrased message lands in the
duplicate_operation bucket, and deduplicating two same-bucket suggestions
keeps exactly the higher-severity one. -/
theorem C3_dedup_buckets_witness :
    get_dedup_key ⟨"a", "style", "t", "Function called twice with same arguments", 3, 1 / 2, 0⟩
      = "duplicate_operation" ∧
    agentPriority "minimalism" = 5 :=
  ⟨(C3_dedup_buckets.1 ⟨"a", "style", "t", "Function called twice with same arguments",
      3, 1 / 2, 0⟩).1 (by decide), C3_dedup_buckets.2.2.1⟩

/-- One-step equation of the line splitter at a CR LF pair. -/
theorem splitlinesGo_crlf (rest acc : List Char) :
    splitlinesGo ('\r' :: '\n' :: rest) acc
      = acc.reverse :: (if rest.isEmpty then [] else splitlinesGo rest []) := rfl

/-- One-step equation of the line splitter at a line-break character that
does not open a CR LF pair. -/
theorem splitlinesGo_cons_break (c : Char) (rest acc : List Char)
    (hb : isLineBreak c = true)
    (hnr : ∀ r : List Char, c = '\r' → rest = '\n' :: r → False) :
    splitlinesGo (c :: rest) acc
      = acc.reverse :: (if rest.isEmpty then [] else splitlinesGo rest []) := by
  conv_lhs => rw [splitlinesGo.eq_def]
  split
  · rename_i heq
    exact absurd heq (by simp)
  · rename_i rest2 heq
    injection heq with h1 h2
    exact (hnr rest2 h1 h2).elim
  · rename_i c2 rest2 hexcl heq
    injection heq with h1 h2
    subst h1
    subst h2
    rw [if_pos hb]

/-- One-step equation of the line splitter at an ordinary character. -/
theorem splitlinesGo_cons_nobreak (c : Char) (rest acc : List Char)
    (hb : isLineBreak c = false) :
    splitlinesGo (c :: rest) acc = splitlinesGo rest (c :: acc) := by
  conv_lhs => rw [splitlinesGo.eq_def]
  split
  · rename_i heq
    exact absurd heq (by simp)
  · rename_i rest2 heq
    injection heq with h1 h2
    rw [h1] at hb
    simp [isLineBreak] at hb
  · rename_i c2 rest2 hexcl heq
    injection heq with h1 h2
    subst h1
    subst h2
    rw [if_neg (by simp [hb])]

/-- Appending one final newline either leaves the split lines unchanged
(when the text does not already end at a line boundary) or adds one empty
final line. -/
theorem splitlinesGo_append_nl (cs acc : List Char) :
    splitlinesGo (cs ++ ['\n']) acc = splitlinesGo cs acc ∨
    splitlinesGo (cs ++ ['\n']) acc = splitlinesGo cs acc ++ [[]] := by
  induction cs, acc using splitlinesGo.induct with
  | case1 acc => left; rfl
  | case2 rest acc ih =>
    by_cases hrest : rest.isEmpty
    · have h : rest = [] := by simpa using hrest
      subst h
      right
      rfl
    · have hL : splitlinesGo (('\r' :: '\n' :: rest) ++ ['\n']) acc
          = acc.reverse :: splitlinesGo (rest ++ ['\n']) [] := by
        rw [List.cons_append, List.cons_append, splitlinesGo_crlf,
          if_neg (by simp)]
      rw [hL, splitlinesGo_crlf, if_neg (by simpa using hrest)]
      rcases ih with h | h
      · left; rw [h]
      · right; rw [h, List.cons_append]
  | case3 c rest acc hexcl hb ih =>
    by_cases hrest : rest.isEmpty
    · have h : rest = [] := by simpa using hrest
      subst h
      by_cases hc : c = '\r'
      · subst hc
        left
        rfl
      · have hL : splitlinesGo ([c] ++ ['\n']) acc
            = acc.reverse :: splitlinesGo ['\n'] [] := by
          rw [List.cons_append, List.nil_append,
            splitlinesGo_cons_break c ['\n'] acc hb
              (fun r h1 h2 => hc h1), if_neg (by simp)]
        rw [hL, splitlinesGo_cons_break c [] acc hb (by intro r _ h; cases h),
          if_pos (by simp)]
        right
        rfl
    · have hnr : ∀ r : List Char, c = '\r' → rest ++ ['\n'] = '\n' :: r → False := by
        intro r h1 h2
        cases rest with
        | nil => exact hrest (by simp)
        | cons d rest' =>
          rw [List.cons_append] at h2
          injection h2 with h3 h4
          exact hexcl rest' h1 (by rw [h3])
      have hL : splitlinesGo ((c :: rest) ++ ['\n']) acc
          = acc.reverse :: splitlinesGo (rest ++ ['\n']) [] := by
        rw [List.cons_append, splitlinesGo_cons_break c (rest ++ ['\n']) acc hb hnr,
          if_neg (by simp)]
      rw [hL, splitlinesGo_cons_break c rest acc hb hexcl,
        if_neg (by simpa using hrest)]
      rcases ih with h | h
      · left; rw [h]
      · right; rw [h, List.cons_append]
  | case4 c rest acc hexcl hb ih =>
    have hb' : isLineBreak c = false := by simpa using hb
    have hnr : ∀ r : List Char, c = '\r' → rest ++ ['\n'] = '\n' :: r → False := by
      intro r h1 h2
      rw [h1] at hb'
      simp [isLineBreak] at hb'
    rw [List.cons_append, splitlinesGo_cons_nobreak c (rest ++ ['\n']) acc hb',
      splitlinesGo_cons_nobreak c rest acc hb']
    exact ih

/-- Normalizing the empty line yields the empty line. -/
theorem normLine_nil : normLine [] = [] := rfl

/-- A leading newline contributes one empty line to the split. -/
theorem splitlines_cons_nl (cs : List Char) :
    splitlines ('\n' :: cs) = [] :: splitlines cs := by
  by_cases hcs : cs.isEmpty
  · have h : cs = [] := by simpa using hcs
    subst h
    rfl
  · have h1 : splitlinesGo ('\n' :: cs) []
        = [] :: (if cs.isEmpty then [] else splitlinesGo cs []) := rfl
    unfold splitlines
    rw [if_neg (by simp), if_neg (by simpa using hcs), h1, if_neg (by simpa using hcs)]

/-- A leading newline does not change the normalized code. -/
theorem normalize_cons_nl (cs : List Char) :
    normalize_code (String.mk ('\n' :: cs)) = normalize_code (String.mk cs) := by
  unfold normalize_code
  rw [show (String.mk ('\n' :: cs)).toList = '\n' :: cs from rfl,
    show (String.mk cs).toList = cs from rfl, splitlines_cons_nl]
  simp [List.map_cons, List.filter_cons, normLine_nil]

/-- A trailing newline does not change the kept normalized lines. -/
theorem normalized_lines_append_nl (cs : List Char) :
    ((splitlines (cs ++ ['\n'])).map normLine).filter (fun l => !l.isEmpty)
      = ((splitlines cs).map normLine).filter (fun l => !l.isEmpty) := by
  by_cases h : cs.isEmpty
  · have hc : cs = [] := by simpa using h
    subst hc
    rfl
  · unfold splitlines
    rw [if_neg (by simp), if_neg (by simpa using h)]
    rcases splitlinesGo_append_nl cs [] with heq | heq
    · rw [heq]
    · rw [heq, List.map_append, List.filter_append]
      simp [normLine_nil]

/-- A trailing newline does not change the normalized code. -/
theorem normalize_append_nl (cs : List Char) :
    normalize_code (String.mk (cs ++ ['\n'])) = normalize_code (String.mk cs) := by
  unfold normalize_code
  rw [show (String.mk (cs ++ ['\n'])).toList = cs ++ ['\n'] from rfl,
    show (String.mk cs).toList = cs from rfl, normalized_lines_append_nl]

/-- C9: the fingerprint is invariant under whitespace-only reformatting
around operators and under appending a trailing comment (witnessed on the
spec's concrete examples), and for every code snippet surrounding blank
lines (any number of leading and trailing newline characters) leave the
fingerprint unchanged, whatever digest function models SHA-256. -/
theorem C9_fingerprint_invariance (sha256hex : String → String) :
    compute_code_hash sha256hex "x = 1" = compute_code_hash sha256hex "x=1" ∧
    compute_code_hash sha256hex "x=1  # note" = compute_code_hash sha256hex "x=1" ∧
    ∀ (code : String) (m n : ℕ),
      compute_code_hash sha256hex
          (String.mk (List.replicate m '\n' ++ code.toList ++ List.replicate n '\n'))
        = compute_code_hash sha256hex code := by
  refine ⟨congrArg sha256hex (by decide), congrArg sha256hex (by decide), ?_⟩
  intro code m n
  have hsuf : ∀ (k : ℕ) (cs : List Char),
      normalize_code (String.mk (cs ++ List.replicate k '\n'))
        = normalize_code (String.mk cs) := by
    intro k
    induction k with
    | zero => intro cs; simp
    | succ k ih =>
      intro cs
      have hsh : cs ++ List.replicate (k + 1) '\n' = (cs ++ ['\n']) ++ List.replicate k '\n' := by
        rw [List.replicate_succ, List.append_cons]
      rw [hsh, ih (cs ++ ['\n']), normalize_append_nl]
  have hpre : ∀ (k : ℕ) (cs : List Char),
      normalize_code (String.mk (List.replicate k '\n' ++ cs))
        = normalize_code (String.mk cs) := by
    intro k
    induction k with
    | zero => intro cs; simp
    | succ k ih =>
      intro cs
      rw [List.replicate_succ, List.cons_append, normalize_cons_nl, ih cs]
  have hmain : normalize_code
      (String.mk (List.replicate m '\n' ++ code.toList ++ List.replicate n '\n'))
        = normalize_code code := by
    rw [hsuf n (List.replicate m '\n' ++ code.toList), hpre m code.toList]
    rfl
  exact congrArg sha256hex hmain

/-- Whitespace characters are never operator characters. -/
theorem ws_not_op (c : Char) (h : pyIsSpace c = true) : isOp c = false := by
  rcases Bool.eq_false_or_eq_true (isOp c) with hop | hop
  · exfalso
    simp only [pyIsSpace, Bool.or_eq_true, Bool.and_eq_true, beq_iff_eq,
      decide_eq_true_eq] at h
    simp only [isOp, Bool.or_eq_true, beq_iff_eq] at hop
    omega
  · exact hop

/-- Operator characters are never whitespace. -/
theorem op_not_ws (c : Char) (h : isOp c = true) : pyIsSpace c = false := by
  rcases Bool.eq_false_or_eq_true (pyIsSpace c) with hws | hws
  · rw [ws_not_op c hws] at h
    cases h
  · exact hws

/-- Line-break characters are whitespace. -/
theorem break_is_ws (c : Char) (h : isLineBreak c = true) : pyIsSpace c = true := by
  simp only [isLineBreak, Bool.or_eq_true, beq_iff_eq] at h
  simp only [pyIsSpace, Bool.or_eq_true, Bool.and_eq_true, beq_iff_eq, decide_eq_true_eq]
  omega

/-- Whitespace next to whitespace is a valid pair. -/
theorem sepOk_ws_ws (a b : Char) (ha : pyIsSpace a = true) (hb : pyIsSpace b = true) :
    sepOk a b = true := by
  simp [sepOk, ws_not_op a ha, ws_not_op b hb]

/-- A left character that is neither whitespace nor operator always forms
a valid pair. -/
theorem sepOk_of_plain (a b : Char) (h1 : pyIsSpace a = false) (h2 : isOp a = false) :
    sepOk a b = true := by
  simp [sepOk, h1, h2]

/-- An operator followed by a non-space is a valid pair. -/
theorem sepOk_op_nonws (a b : Char) (ha : isOp a = true) (hb : pyIsSpace b = false) :
    sepOk a b = true := by
  simp [sepOk, op_not_ws a ha, hb]

/-- Whitespace followed by a non-operator is a valid pair. -/
theorem sepOk_ws_nonop (a b : Char) (ha : pyIsSpace a = true) (hb : isOp b = false) :
    sepOk a b = true := by
  simp [sepOk, ws_not_op a ha, hb]

/-- After whitespace, a valid pair forbids an operator. -/
theorem sepOk_elim₁ (a b : Char) (h : sepOk a b = true) (ha : pyIsSpace a = true) :
    isOp b = false := by
  simp only [sepOk, ha, Bool.true_and, Bool.and_eq_true, Bool.not_eq_eq_eq_not,
    Bool.not_true] at h
  exact h.1

/-- After an operator, a valid pair forbids whitespace. -/
theorem sepOk_elim₂ (a b : Char) (h : sepOk a b = true) (ha : isOp a = true) :
    pyIsSpace b = false := by
  simp only [sepOk, ha, Bool.true_and, Bool.and_eq_true, Bool.not_eq_eq_eq_not,
    Bool.not_true] at h
  exact h.2

/-- An all-whitespace list is whitespace-operator free. -/
theorem chain_all_ws : ∀ (m : List Char), (∀ c ∈ m, pyIsSpace c = true) → wsOpFree m := by
  intro m
  induction m with
  | nil => intro _; exact List.chain'_nil
  | cons c cs ih =>
    intro hall
    rw [wsOpFree, List.chain'_cons']
    refine ⟨?_, ih (fun d hd => hall d (by simp [hd]))⟩
    intro y hy
    exact sepOk_ws_ws c y (hall c (by simp))
      (hall y (List.mem_cons_of_mem c (List.mem_of_mem_head? hy)))

/-- The operator-spacing scan emits only pending or input characters. -/
theorem collapseOpsGo_subset :
    ∀ (l pend : List Char) (afterOp : Bool) (x : Char),
      x ∈ collapseOpsGo afterOp pend l → x ∈ pend ∨ x ∈ l := by
  intro l
  induction l with
  | nil =>
    intro pend afterOp x hx
    left
    simpa [collapseOpsGo] using hx
  | cons c cs ih =>
    intro pend afterOp x hx
    simp only [collapseOpsGo] at hx
    by_cases hws : pyIsSpace c
    · rw [if_pos hws] at hx
      by_cases hao : afterOp = true
      · rw [if_pos hao] at hx
        rcases ih pend true x hx with h | h
        · exact Or.inl h
        · exact Or.inr (by simp [h])
      · rw [if_neg hao] at hx
        rcases ih (c :: pend) false x hx with h | h
        · rcases List.mem_cons.mp h with rfl | h'
          · exact Or.inr (by simp)
          · exact Or.inl h'
        · exact Or.inr (by simp [h])
    · rw [if_neg hws] at hx
      by_cases hop : isOp c
      · rw [if_pos hop] at hx
        rcases List.mem_cons.mp hx with rfl | h
        · exact Or.inr (by simp)
        · rcases ih [] true x h with h' | h'
          · simp at h'
          · exact Or.inr (by simp [h'])
      · rw [if_neg hop] at hx
        rw [List.mem_append] at hx
        rcases hx with h | h
        · exact Or.inl (by simpa using h)
        · rcases List.mem_cons.mp h with rfl | h'
          · exact Or.inr (by simp)
          · rcases ih [] false x h' with h'' | h''
            · simp at h''
            · exact Or.inr (by simp [h''])

/-- Right after an operator, the scan next emits a non-space character. -/
theorem collapseOpsGo_head_nonws :
    ∀ (cs : List Char) (h : Char),
      (collapseOpsGo true [] cs).head? = some h → pyIsSpace h = false := by
  intro cs
  induction cs with
  | nil => intro h hh; simp [collapseOpsGo] at hh
  | cons c cs' ih =>
    intro h hh
    simp only [collapseOpsGo] at hh
    by_cases hws : pyIsSpace c
    · rw [if_pos hws] at hh
      rw [if_pos trivial] at hh
      exact ih h hh
    · rw [if_neg hws] at hh
      by_cases hop : isOp c
      · rw [if_pos hop] at hh
        simp only [List.head?_cons, Option.some.injEq] at hh
        rw [← hh]
        simpa using hws
      · rw [if_neg hop] at hh
        simp only [List.reverse_nil, List.nil_append, List.head?_cons,
          Option.some.injEq] at hh
        rw [← hh]
        simpa using hws

/-- The operator-spacing scan never leaves whitespace adjacent to an
operator: its output is whitespace-operator free. -/
theorem collapseOpsGo_chain :
    ∀ (l pend : List Char) (afterOp : Bool),
      (∀ c ∈ pend, pyIsSpace c = true) → (afterOp = true → pend = []) →
      wsOpFree (collapseOpsGo afterOp pend l) := by
  intro l
  induction l with
  | nil =>
    intro pend afterOp hws _
    exact chain_all_ws pend.reverse (fun c hc => hws c (by simpa using hc))
  | cons c cs ih =>
    intro pend afterOp hpws hao
    show List.Chain' _ (collapseOpsGo afterOp pend (c :: cs))
    simp only [collapseOpsGo]
    by_cases hws : pyIsSpace c
    · rw [if_pos hws]
      by_cases ha : afterOp = true
      · rw [if_pos ha]
        exact ih pend true hpws (fun _ => hao ha)
      · rw [if_neg ha]
        refine ih (c :: pend) false ?_ (by simp)
        intro d hd
        rcases List.mem_cons.mp hd with rfl | hd'
        · exact hws
        · exact hpws d hd'
    · rw [if_neg hws]
      by_cases hop : isOp c
      · rw [if_pos hop]
        rw [List.chain'_cons']
        refine ⟨?_, ih [] true (by simp) (fun _ => rfl)⟩
        intro y hy
        exact sepOk_op_nonws c y hop (collapseOpsGo_head_nonws cs y (Option.mem_def.mp hy))
      · rw [if_neg hop]
        rw [List.chain'_append]
        refine ⟨chain_all_ws _ (fun d hd => hpws d (by simpa using hd)), ?_, ?_⟩
        · rw [List.chain'_cons']
          exact ⟨fun y _ => sepOk_of_plain c y (by simpa using hws) (by simpa using hop),
            ih [] false (by simp) (by simp)⟩
        · intro x hx y hy
          have hxws : pyIsSpace x = true :=
            hpws x (by simpa using List.mem_of_getLast?_eq_some (Option.mem_def.mp hx))
          have hyc : c = y := by simpa using hy
          rw [← hyc]
          exact sepOk_ws_nonop x c hxws (by simpa using hop)

/-- On a whitespace-operator-free line the operator-spacing scan is the
identity: it replays the pending whitespace followed by the input. -/
theorem collapseOpsGo_id :
    ∀ (l : List Char) (mode : Bool) (pend : List Char),
      wsOpFree l →
      (mode = true → pend = [] ∧ ∀ h, l.head? = some h → pyIsSpace h = false) →
      (mode = false → (∀ c ∈ pend, pyIsSpace c = true) ∧
        (pend ≠ [] → ∀ h, l.head? = some h → isOp h = false)) →
      collapseOpsGo mode pend l = pend.reverse ++ l := by
  intro l
  induction l with
  | nil =>
    intro mode pend _ _ _
    simp [collapseOpsGo]
  | cons c cs ih =>
    intro mode pend hchain hmt hmf
    have hchain' : wsOpFree cs := (List.chain'_cons'.mp hchain).2
    have hbnd : ∀ y, cs.head? = some y → sepOk c y = true := by
      intro y hy
      exact (List.chain'_cons'.mp hchain).1 y (Option.mem_def.mpr hy)
    simp only [collapseOpsGo]
    by_cases hm : mode = true
    · subst hm
      obtain ⟨hpe, hhd⟩ := hmt rfl
      subst hpe
      have hcnws : pyIsSpace c = false := hhd c rfl
      rw [if_neg (by simp [hcnws])]
      by_cases hop : isOp c
      · rw [if_pos hop]
        have hrec : collapseOpsGo true [] cs = [].reverse ++ cs := by
          refine ih true [] hchain' ?_ (fun hf => absurd hf (by simp))
          intro _
          exact ⟨rfl, fun h hh => sepOk_elim₂ c h (hbnd h hh) hop⟩
        rw [hrec]
        simp
      · rw [if_neg hop]
        have hrec : collapseOpsGo false [] cs = [].reverse ++ cs := by
          refine ih false [] hchain' (fun hf => absurd hf (by simp)) ?_
          intro _
          exact ⟨by simp, fun hne => absurd rfl hne⟩
        rw [hrec]
        simp
    · have hm' : mode = false := by simpa using hm
      subst hm'
      obtain ⟨hpws, hpop⟩ := hmf rfl
      by_cases hws : pyIsSpace c
      · rw [if_pos hws, if_neg (by simp)]
        have hrec : collapseOpsGo false (c :: pend) cs = (c :: pend).reverse ++ cs := by
          refine ih false (c :: pend) hchain' (fun hf => absurd hf (by simp)) ?_
          intro _
          refine ⟨?_, ?_⟩
          · intro d hd
            rcases List.mem_cons.mp hd with rfl | hd'
            · exact hws
            · exact hpws d hd'
          · intro _ h hh
            exact sepOk_elim₁ c h (hbnd h hh) hws
        rw [hrec]
        simp [List.reverse_cons, List.append_assoc]
      · rw [if_neg hws]
        by_cases hop : isOp c
        · rw [if_pos hop]
          have hpe : pend = [] := by
            by_contra hne
            have hop' := hpop hne c rfl
            rw [hop] at hop'
            cases hop'
          subst hpe
          have hrec : collapseOpsGo true [] cs = [].reverse ++ cs := by
            refine ih true [] hchain' ?_ (fun hf => absurd hf (by simp))
            intro _
            exact ⟨rfl, fun h hh => sepOk_elim₂ c h (hbnd h hh) hop⟩
          rw [hrec]
          simp
        · rw [if_neg hop]
          have hrec : collapseOpsGo false [] cs = [].reverse ++ cs := by
            refine ih false [] hchain' (fun hf => absurd hf (by simp)) ?_
            intro _
            exact ⟨by simp, fun hne => absurd rfl hne⟩
          rw [hrec]
          simp

/-- Dropping a prefix preserves any adjacent-pair chain. -/
theorem chain_dropWhile (R : Char → Char → Prop) (p : Char → Bool) :
    ∀ (l : List Char), List.Chain' R l → List.Chain' R (l.dropWhile p) := by
  intro l
  induction l with
  | nil => intro h; exact h
  | cons c cs ih =>
    intro h
    rw [List.dropWhile_cons]
    by_cases hc : p c = true
    · rw [if_pos hc]
      exact ih (List.chain'_cons'.mp h).2
    · rw [if_neg hc]
      exact h

/-- The head surviving dropWhile fails the dropped predicate. -/
theorem dropWhile_head (p : Char → Bool) :
    ∀ (l : List Char) (h : Char), (l.dropWhile p).head? = some h → p h = false := by
  intro l
  induction l with
  | nil => intro h hh; simp at hh
  | cons c cs ih =>
    intro h hh
    rw [List.dropWhile_cons] at hh
    by_cases hc : p c = true
    · rw [if_pos hc] at hh
      exact ih h hh
    · rw [if_neg hc] at hh
      simp only [List.head?_cons, Option.some.injEq] at hh
      rw [← hh]
      simpa using hc

/-- The whitespace collapser emits only single spaces and input characters. -/
theorem squeezeGo_subset :
    ∀ (l : List Char) (pend : Bool) (x : Char),
      x ∈ squeezeGo pend l → x = ' ' ∨ x ∈ l := by
  intro l
  induction l with
  | nil => intro pend x hx; simp [squeezeGo] at hx
  | cons c cs ih =>
    intro pend x hx
    simp only [squeezeGo] at hx
    by_cases hws : pyIsSpace c
    · rw [if_pos hws] at hx
      rcases ih true x hx with h | h
      · exact Or.inl h
      · exact Or.inr (by simp [h])
    · rw [if_neg hws] at hx
      by_cases hp : pend = true
      · rw [if_pos hp] at hx
        rcases List.mem_cons.mp hx with rfl | hx'
        · exact Or.inl rfl
        · rcases List.mem_cons.mp hx' with rfl | hx''
          · exact Or.inr (by simp)
          · rcases ih false x hx'' with h | h
            · exact Or.inl h
            · exact Or.inr (by simp [h])
      · rw [if_neg hp] at hx
        rcases List.mem_cons.mp hx with rfl | hx'
        · exact Or.inr (by simp)
        · rcases ih false x hx' with h | h
          · exact Or.inl h
          · exact Or.inr (by simp [h])

/-- Every whitespace character the collapser emits is a single space. -/
theorem squeezeGo_ws_space :
    ∀ (l : List Char) (pend : Bool) (x : Char),
      x ∈ squeezeGo pend l → pyIsSpace x = true → x = ' ' := by
  intro l
  induction l with
  | nil => intro pend x hx _; simp [squeezeGo] at hx
  | cons c cs ih =>
    intro pend x hx hxws
    simp only [squeezeGo] at hx
    by_cases hws : pyIsSpace c
    · rw [if_pos hws] at hx
      exact ih true x hx hxws
    · rw [if_neg hws] at hx
      by_cases hp : pend = true
      · rw [if_pos hp] at hx
        rcases List.mem_cons.mp hx with rfl | hx'
        · rfl
        · rcases List.mem_cons.mp hx' with rfl | hx''
          · rw [hxws] at hws; cases hws rfl
          · exact ih false x hx'' hxws
      · rw [if_neg hp] at hx
        rcases List.mem_cons.mp hx with rfl | hx'
        · rw [hxws] at hws; cases hws rfl
        · exact ih false x hx' hxws

/-- With no pending separator, the collapser preserves a non-space head. -/
theorem squeezeGo_false_head (cs : List Char) (h : Char)
    (hh : cs.head? = some h) (hnws : pyIsSpace h = false) :
    (squeezeGo false cs).head? = some h := by
  cases cs with
  | nil => simp at hh
  | cons c cs' =>
    simp only [List.head?_cons, Option.some.injEq] at hh
    subst hh
    simp only [squeezeGo]
    rw [if_neg (by simp [hnws]), if_neg (by simp)]
    rfl

/-- The head of a cons with a nonempty tail is the tail's last element. -/
theorem getLast?_cons_of_ne (c : Char) (cs : List Char) (hne : cs ≠ []) :
    (c :: cs).getLast? = cs.getLast? := by
  cases cs with
  | nil => exact absurd rfl hne
  | cons d cs' => exact List.getLast?_cons_cons

/-- The whitespace collapser preserves whitespace-operator freedom. -/
theorem squeezeGo_chain :
    ∀ (l : List Char) (pend : Bool),
      wsOpFree l →
      (pend = true → ∀ h, l.head? = some h → isOp h = false) →
      wsOpFree (squeezeGo pend l) := by
  intro l
  induction l with
  | nil => intro pend _ _; simp [squeezeGo, wsOpFree]
  | cons c cs ih =>
    intro pend hchain hpop
    have hchain' : wsOpFree cs := (List.chain'_cons'.mp hchain).2
    have hbnd : ∀ y, cs.head? = some y → sepOk c y = true := fun y hy =>
      (List.chain'_cons'.mp hchain).1 y (Option.mem_def.mpr hy)
    show List.Chain' _ (squeezeGo pend (c :: cs))
    simp only [squeezeGo]
    by_cases hws : pyIsSpace c
    · rw [if_pos hws]
      refine ih true hchain' ?_
      intro _ h hh
      exact sepOk_elim₁ c h (hbnd h hh) hws
    · rw [if_neg hws]
      by_cases hp : pend = true
      · rw [if_pos hp]
        have hcop : isOp c = false := hpop hp c rfl
        rw [List.chain'_cons']
        refine ⟨?_, ?_⟩
        · intro y hy
          have hyc : c = y := by simpa using hy
          rw [← hyc]
          exact sepOk_ws_nonop ' ' c (by decide) hcop
        · rw [List.chain'_cons']
          exact ⟨fun y _ => sepOk_of_plain c y (by simpa using hws) hcop,
            ih false hchain' (fun hf => absurd hf (by simp))⟩
      · rw [if_neg hp]
        rw [List.chain'_cons']
        refine ⟨?_, ih false hchain' (fun hf => absurd hf (by simp))⟩
        intro y hy
        by_cases hcop : isOp c
        · cases hcs : cs.head? with
          | none =>
            have hnil : cs = [] := by
              cases cs with
              | nil => rfl
              | cons d cs' => simp at hcs
            subst hnil
            simp [squeezeGo] at hy
          | some d =>
            have hdnws : pyIsSpace d = false := sepOk_elim₂ c d (hbnd d hcs) hcop
            have hhead := squeezeGo_false_head cs d hcs hdnws
            have hyd : d = y := by
              rw [Option.mem_def, hhead] at hy
              injection hy
            rw [← hyd]
            exact sepOk_op_nonws c d hcop hdnws
        · exact sepOk_of_plain c y (by simpa using hws) (by simpa using hcop)

/-- The whitespace collapser never emits two adjacent whitespace
characters. -/
theorem squeezeGo_nodbl :
    ∀ (l : List Char) (pend : Bool),
      List.Chain' (fun a b => (pyIsSpace a && pyIsSpace b) = false) (squeezeGo pend l) := by
  intro l
  induction l with
  | nil => intro pend; simp [squeezeGo]
  | cons c cs ih =>
    intro pend
    simp only [squeezeGo]
    by_cases hws : pyIsSpace c
    · rw [if_pos hws]
      exact ih true
    · rw [if_neg hws]
      have hcf : pyIsSpace c = false := by simpa using hws
      by_cases hp : pend = true
      · rw [if_pos hp]
        rw [List.chain'_cons']
        refine ⟨?_, ?_⟩
        · intro y hy
          have hyc : c = y := by simpa using hy
          rw [← hyc]
          simp [hcf]
        · rw [List.chain'_cons']
          exact ⟨fun y _ => by simp [hcf], ih false⟩
      · rw [if_neg hp]
        rw [List.chain'_cons']
        exact ⟨fun y _ => by simp [hcf], ih false⟩

/-- The whitespace collapser never ends in whitespace. -/
theorem squeezeGo_last :
    ∀ (l : List Char) (pend : Bool) (h : Char),
      (squeezeGo pend l).getLast? = some h → pyIsSpace h = false := by
  intro l
  induction l with
  | nil => intro pend h hh; simp [squeezeGo] at hh
  | cons c cs ih =>
    intro pend h hh
    simp only [squeezeGo] at hh
    by_cases hws : pyIsSpace c
    · rw [if_pos hws] at hh
      exact ih true h hh
    · rw [if_neg hws] at hh
      by_cases hp : pend = true
      · rw [if_pos hp] at hh
        rw [List.getLast?_cons_cons] at hh
        cases hrec : squeezeGo false cs with
        | nil =>
          rw [hrec] at hh
          simp only [List.getLast?_singleton, Option.some.injEq] at hh
          rw [← hh]
          simpa using hws
        | cons d rec' =>
          rw [hrec, List.getLast?_cons_cons] at hh
          exact ih false h (by rw [hrec]; exact hh)
      · rw [if_neg hp] at hh
        cases hrec : squeezeGo false cs with
        | nil =>
          rw [hrec] at hh
          simp only [List.getLast?_singleton, Option.some.injEq] at hh
          rw [← hh]
          simpa using hws
        | cons d rec' =>
          rw [hrec, List.getLast?_cons_cons] at hh
          exact ih false h (by rw [hrec]; exact hh)

/-- On a canonical line (single spaces only, no leading or trailing
whitespace, no two adjacent whitespace characters) the whitespace
collapser is the identity, modulo an owed leading separator. -/
theorem squeezeGo_id :
    ∀ (t : List Char) (pend : Bool),
      List.Chain' (fun a b => (pyIsSpace a && pyIsSpace b) = false) t →
      (∀ c ∈ t, pyIsSpace c = true → c = ' ') →
      (∀ h, t.getLast? = some h → pyIsSpace h = false) →
      (pend = true → t ≠ [] ∧ ∀ h, t.head? = some h → pyIsSpace h = false) →
      squeezeGo pend t = (if pend then [' '] else []) ++ t := by
  intro t
  induction t with
  | nil =>
    intro pend _ _ _ hpt
    by_cases hp : pend = true
    · exact absurd rfl (hpt hp).1
    · have hp' : pend = false := by simpa using hp
      subst hp'
      rfl
  | cons c cs ih =>
    intro pend hch hsp hlast hpt
    simp only [squeezeGo]
    by_cases hws : pyIsSpace c
    · have hp : pend = false := by
        by_cases h : pend = true
        · have hc := (hpt h).2 c rfl
          rw [hws] at hc
          cases hc
        · simpa using h
      subst hp
      rw [if_pos hws]
      have hceq : c = ' ' := hsp c (by simp) hws
      have hcsne : cs ≠ [] := by
        intro hnil
        subst hnil
        have hc := hlast c (by simp)
        rw [hws] at hc
        cases hc
      have hhd : ∀ h, cs.head? = some h → pyIsSpace h = false := by
        intro h hh
        have hpair := (List.chain'_cons'.mp hch).1 h (Option.mem_def.mpr hh)
        rw [hws, Bool.true_and] at hpair
        exact hpair
      have hrec := ih true (List.chain'_cons'.mp hch).2
        (fun d hd hdw => hsp d (by simp [hd]) hdw)
        (fun h hh => hlast h (by rw [getLast?_cons_of_ne c cs hcsne]; exact hh))
        (fun _ => ⟨hcsne, hhd⟩)
      rw [hrec]
      simp [hceq]
    · rw [if_neg hws]
      have hrec := ih false (List.chain'_cons'.mp hch).2
        (fun d hd hdw => hsp d (by simp [hd]) hdw)
        (fun h hh => by
          have hcsne : cs ≠ [] := by
            intro hnil
            subst hnil
            simp at hh
          exact hlast h (by rw [getLast?_cons_of_ne c cs hcsne]; exact hh))
        (fun hf => absurd hf (by simp))
      rw [hrec]
      by_cases hp : pend = true
      · rw [if_pos hp, if_pos hp]
        rfl
      · rw [if_neg hp, if_neg hp]
        rfl

/-- The collapsed line never starts with whitespace. -/
theorem squeeze_head_nonws (X : List Char) (h : Char)
    (hh : (squeeze X).head? = some h) : pyIsSpace h = false := by
  unfold squeeze at hh
  cases hu : X.dropWhile pyIsSpace with
  | nil => rw [hu] at hh; simp [squeezeGo] at hh
  | cons d u' =>
    have hd : pyIsSpace d = false := dropWhile_head pyIsSpace X d (by rw [hu]; rfl)
    rw [hu] at hh
    simp only [squeezeGo] at hh
    rw [if_neg (by simp [hd]), if_neg (by simp)] at hh
    simp only [List.head?_cons, Option.some.injEq] at hh
    rw [← hh]
    exact hd

/-- Hash-comment stripping removes the hash mark entirely. -/
theorem stripHash_no_hash : ∀ l : List Char, '#' ∉ stripHash l := by
  intro l
  induction l with
  | nil => simp [stripHash]
  | cons c cs ih =>
    simp only [stripHash]
    by_cases hc : c == '#'
    · rw [if_pos hc]
      simp
    · rw [if_neg hc]
      intro hmem
      rcases List.mem_cons.mp hmem with heq | hmem'
      · have hcne : c ≠ '#' := by simpa using hc
        exact hcne heq.symm
      · exact ih hmem'

/-- Hash-comment stripping is the identity without a hash mark. -/
theorem stripHash_id : ∀ l : List Char, '#' ∉ l → stripHash l = l := by
  intro l
  induction l with
  | nil => intro _; rfl
  | cons c cs ih =>
    intro h
    have hc : ¬(c == '#') = true := by
      simp only [beq_iff_eq]
      intro hc
      exact h (by simp [hc])
    simp only [stripHash]
    rw [if_neg hc, ih (fun hm => h (by simp [hm]))]

/-- One-step equation of slash stripping when no comment starts here. -/
theorem stripSlashes_cons_ne (c : Char) (cs : List Char)
    (hnp : ∀ r : List Char, c = '/' → cs = '/' :: r → False) :
    stripSlashes (c :: cs) = c :: stripSlashes cs := by
  conv_lhs => rw [stripSlashes.eq_def]
  split
  · rename_i heq
    exact absurd heq (by simp)
  · rename_i r heq
    injection heq with h1 h2
    exact (hnp r h1 h2).elim
  · rename_i c2 cs2 hexcl heq
    injection heq with h1 h2
    subst h1
    subst h2
    rfl

/-- Slash stripping keeps only input characters. -/
theorem stripSlashes_subset : ∀ (l : List Char) (x : Char), x ∈ stripSlashes l → x ∈ l := by
  intro l
  induction l with
  | nil => intro x hx; simp [stripSlashes] at hx
  | cons c cs ih =>
    intro x hx
    by_cases hsl : ∃ r : List Char, c = '/' ∧ cs = '/' :: r
    · obtain ⟨r, rfl, rfl⟩ := hsl
      simp [stripSlashes] at hx
    · rw [stripSlashes_cons_ne c cs (fun r h1 h2 => hsl ⟨r, h1, h2⟩)] at hx
      rcases List.mem_cons.mp hx with rfl | hx'
      · simp
      · exact List.mem_cons_of_mem c (ih x hx')

/-- Slash stripping is the identity when the line has no double slash. -/
theorem stripSlashes_id : ∀ l : List Char,
    containsSeq ['/', '/'] l = false → stripSlashes l = l := by
  intro l
  induction l with
  | nil => intro _; rfl
  | cons c cs ih =>
    intro h
    have hsplit : (['/', '/'].isPrefixOf (c :: cs) || containsSeq ['/', '/'] cs) = false := h
    rw [Bool.or_eq_false_iff] at hsplit
    obtain ⟨hpref, hrest⟩ := hsplit
    have hnp : ∀ r : List Char, c = '/' → cs = '/' :: r → False := by
      intro r h1 h2
      subst h1
      subst h2
      simp [List.isPrefixOf] at hpref
    rw [stripSlashes_cons_ne c cs hnp, ih hrest]

/-- Substring containment survives prepending. -/
theorem containsSeq_append_left (pat : List Char) :
    ∀ (x l : List Char), containsSeq pat l = true → containsSeq pat (x ++ l) = true := by
  intro x
  induction x with
  | nil => intro l h; simpa using h
  | cons a x' ih =>
    intro l h
    rw [List.cons_append]
    show (pat.isPrefixOf (a :: (x' ++ l)) || containsSeq pat (x' ++ l)) = true
    rw [ih l h, Bool.or_true]

/-- Substring containment survives appending. -/
theorem containsSeq_append_right (pat : List Char) :
    ∀ (l y : List Char), containsSeq pat l = true → containsSeq pat (l ++ y) = true := by
  intro l
  induction l with
  | nil =>
    intro y h
    have hpat : pat = [] := by simpa [containsSeq] using h
    subst hpat
    cases y with
    | nil => rfl
    | cons c cs => simp [containsSeq]
  | cons c cs ih =>
    intro y h
    have hsplit : (pat.isPrefixOf (c :: cs) || containsSeq pat cs) = true := h
    rw [List.cons_append]
    show (pat.isPrefixOf (c :: (cs ++ y)) || containsSeq pat (cs ++ y)) = true
    rcases Bool.or_eq_true _ _ |>.mp hsplit with hpref | hrest
    · have hp : pat <+: c :: cs := List.isPrefixOf_iff_prefix.mp hpref
      have hp' : pat <+: (c :: cs) ++ y := hp.trans (List.prefix_append _ _)
      rw [List.cons_append] at hp'
      rw [List.isPrefixOf_iff_prefix.mpr hp', Bool.true_or]
    · rw [ih y hrest, Bool.or_true]

/-- A double slash inside any line shows up in the joined text. -/
theorem containsSeq_joinNL (pat : List Char) :
    ∀ (lines : List (List Char)) (l : List Char), l ∈ lines →
      containsSeq pat l = true → containsSeq pat (joinNL lines) = true := by
  intro lines
  induction lines with
  | nil => intro l hl; simp at hl
  | cons l0 rest ih =>
    intro l hl hc
    rcases List.mem_cons.mp hl with rfl | hl'
    · cases rest with
      | nil => exact hc
      | cons r0 rs =>
        show containsSeq pat (l ++ '\n' :: joinNL (r0 :: rs)) = true
        exact containsSeq_append_right pat l _ hc
    · cases rest with
      | nil => simp at hl'
      | cons r0 rs =>
        show containsSeq pat (l0 ++ '\n' :: joinNL (r0 :: rs)) = true
        have h1 := ih l hl' hc
        have h2 : containsSeq pat ('\n' :: joinNL (r0 :: rs)) = true :=
          containsSeq_append_left pat ['\n'] _ h1
        exact containsSeq_append_left pat l0 _ h2

/-- The line splitter walks straight through break-free text. -/
theorem splitlinesGo_prefix :
    ∀ (l u acc : List Char), (∀ c ∈ l, isLineBreak c = false) →
      splitlinesGo (l ++ u) acc = splitlinesGo u (l.reverse ++ acc) := by
  intro l
  induction l with
  | nil => intro u acc _; simp
  | cons c l' ih =>
    intro u acc hfree
    rw [List.cons_append,
      splitlinesGo_cons_nobreak c (l' ++ u) acc (hfree c (by simp)),
      ih u (c :: acc) (fun d hd => hfree d (by simp [hd]))]
    simp [List.append_assoc]

/-- On break-free text the splitter yields a single line. -/
theorem splitlinesGo_break_free (l acc : List Char)
    (hfree : ∀ c ∈ l, isLineBreak c = false) :
    splitlinesGo l acc = [acc.reverse ++ l] := by
  have h := splitlinesGo_prefix l [] acc hfree
  rw [List.append_nil] at h
  rw [h]
  show [(l.reverse ++ acc).reverse] = [acc.reverse ++ l]
  simp

/-- Joining nonempty lines yields nonempty text. -/
theorem joinNL_ne_nil : ∀ (ls : List (List Char)), ls ≠ [] →
    (∀ l ∈ ls, l ≠ []) → joinNL ls ≠ [] := by
  intro ls hne hall
  cases ls with
  | nil => exact absurd rfl hne
  | cons l0 rest =>
    cases rest with
    | nil => exact hall l0 (by simp)
    | cons r0 rs =>
      show l0 ++ '\n' :: joinNL (r0 :: rs) ≠ []
      simp

/-- Splitting the newline-join of nonempty break-free lines recovers
exactly those lines. -/
theorem splitlines_joinNL :
    ∀ (ls : List (List Char)),
      (∀ l ∈ ls, l ≠ [] ∧ ∀ c ∈ l, isLineBreak c = false) →
      splitlines (joinNL ls) = ls := by
  intro ls
  induction ls with
  | nil => intro _; rfl
  | cons l0 rest ih =>
    intro hall
    obtain ⟨hne0, hfree0⟩ := hall l0 (by simp)
    cases rest with
    | nil =>
      show splitlines l0 = [l0]
      unfold splitlines
      rw [if_neg (by simpa [List.isEmpty_iff] using hne0),
        splitlinesGo_break_free l0 [] hfree0]
      simp
    | cons r0 rs =>
      show splitlines (l0 ++ '\n' :: joinNL (r0 :: rs)) = l0 :: r0 :: rs
      have hjne : joinNL (r0 :: rs) ≠ [] :=
        joinNL_ne_nil (r0 :: rs) (by simp) (fun l hl => (hall l (by simp [hl])).1)
      unfold splitlines
      rw [if_neg (by simp [List.isEmpty_iff, hne0]),
        splitlinesGo_prefix l0 ('\n' :: joinNL (r0 :: rs)) [] hfree0,
        List.append_nil,
        splitlinesGo_cons_break '\n' (joinNL (r0 :: rs)) l0.reverse (by decide)
          (fun r h1 _ => by cases h1),
        if_neg (by simpa [List.isEmpty_iff] using hjne)]
      have hrec : splitlinesGo (joinNL (r0 :: rs)) [] = r0 :: rs := by
        have := ih (fun l hl => hall l (by simp [hl]))
        unfold splitlines at this
        rw [if_neg (by simpa [List.isEmpty_iff] using hjne)] at this
        exact this
      rw [hrec]
      simp

/-- Canonical-form facts about every normalized line: no whitespace next
to an operator, no two adjacent whitespace characters, every whitespace
is a single space, no leading or trailing whitespace, no hash mark. -/
theorem normLine_canonical (l : List Char) :
    wsOpFree (normLine l) ∧
    List.Chain' (fun a b => (pyIsSpace a && pyIsSpace b) = false) (normLine l) ∧
    (∀ x ∈ normLine l, pyIsSpace x = true → x = ' ') ∧
    (∀ h, (normLine l).getLast? = some h → pyIsSpace h = false) ∧
    (∀ h, (normLine l).head? = some h → pyIsSpace h = false) ∧
    '#' ∉ normLine l := by
  have hXchain : wsOpFree (collapseOps (stripSlashes (stripHash l))) :=
    collapseOpsGo_chain (stripSlashes (stripHash l)) [] false (by simp) (by simp)
  refine ⟨?_, ?_, ?_, ?_, ?_, ?_⟩
  · show wsOpFree (squeezeGo false
      ((collapseOps (stripSlashes (stripHash l))).dropWhile pyIsSpace))
    exact squeezeGo_chain _ false
      (chain_dropWhile _ pyIsSpace _ hXchain) (fun hf => absurd hf (by simp))
  · exact squeezeGo_nodbl _ false
  · intro x hx
    exact squeezeGo_ws_space _ false x hx
  · intro h hh
    exact squeezeGo_last _ false h hh
  · intro h hh
    exact squeeze_head_nonws _ h hh
  · intro hmem
    rcases squeezeGo_subset _ false '#' hmem with h | h
    · exact absurd h (by decide)
    · have h' : '#' ∈ collapseOps (stripSlashes (stripHash l)) :=
        (List.dropWhile_sublist pyIsSpace).subset h
      rcases collapseOpsGo_subset (stripSlashes (stripHash l)) [] false '#' h' with h'' | h''
      · simp at h''
      · exact stripHash_no_hash l (stripSlashes_subset (stripHash l) '#' h'')

/-- A line already in canonical form (and without a double slash) is a
fixed point of the per-line normalization. -/
theorem normLine_fixed (t : List Char)
    (hchain : wsOpFree t)
    (hnodbl : List.Chain' (fun a b => (pyIsSpace a && pyIsSpace b) = false) t)
    (hwsp : ∀ x ∈ t, pyIsSpace x = true → x = ' ')
    (hlast : ∀ h, t.getLast? = some h → pyIsSpace h = false)
    (hhead : ∀ h, t.head? = some h → pyIsSpace h = false)
    (hnohash : '#' ∉ t)
    (hds : containsSeq ['/', '/'] t = false) :
    normLine t = t := by
  have h1 : stripHash t = t := stripHash_id t hnohash
  have h2 : stripSlashes t = t := stripSlashes_id t hds
  have h3 : collapseOps t = t := by
    have h := collapseOpsGo_id t false [] hchain (fun hf => absurd hf (by simp))
      (fun _ => ⟨by simp, fun hne => absurd rfl hne⟩)
    simpa [collapseOps] using h
  have h4 : squeeze t = t := by
    have hdw : t.dropWhile pyIsSpace = t := by
      cases hc : t with
      | nil => rfl
      | cons d t' =>
        have hd : pyIsSpace d = false := hhead d (by rw [hc]; rfl)
        rw [List.dropWhile_cons, if_neg (by simp [hd])]
    show squeezeGo false (t.dropWhile pyIsSpace) = t
    rw [hdw]
    have h := squeezeGo_id t false hnodbl hwsp hlast (fun hf => absurd hf (by simp))
    simpa using h
  show squeeze (collapseOps (stripSlashes (stripHash t))) = t
  rw [h1, h2, h3, h4]

/-- Normalizing an already-normalized line again changes nothing as long
as the normalized line contains no double slash. -/
theorem normLine_idem (l : List Char)
    (hds : containsSeq ['/', '/'] (normLine l) = false) :
    normLine (normLine l) = normLine l := by
  obtain ⟨h1, h2, h3, h4, h5, h6⟩ := normLine_canonical l
  exact normLine_fixed (normLine l) h1 h2 h3 h4 h5 h6 hds

/-- C10 counterexample: normalize_code is not idempotent: collapsing the
operator spacing of "a / / b" creates the double slash "a//b", which the
comment stripper of a second pass truncates to "a", so the fingerprint of
the normalized text differs from the fingerprint of the original. -/
theorem C10_counterexample :
    normalize_code (normalize_code "a / / b") ≠ normalize_code "a / / b" ∧
    compute_code_hash id (normalize_code "a / / b") ≠ compute_code_hash id "a / / b" := by
  constructor
  · decide
  · decide

/-- C10 (amended): normalize_code is idempotent on every input whose
normalized form contains no double slash — for such code,
normalize_code (normalize_code code) = normalize_code code and hence
compute_code_hash (normalize_code code) = compute_code_hash code for any
digest function; when operator collapsing manufactures a double slash the
second pass treats it as a comment and the equations fail. -/
theorem C10_normalize_idempotent (code : String)
    (hds : strContains (normalize_code code) "//" = false) :
    normalize_code (normalize_code code) = normalize_code code ∧
    ∀ sha256hex : String → String,
      compute_code_hash sha256hex (normalize_code code) = compute_code_hash sha256hex code := by
  have hmain : normalize_code (normalize_code code) = normalize_code code := by
    set lines := ((splitlines code.toList).map normLine).filter (fun l => !l.isEmpty)
      with hlines
    have hmem : ∀ l' ∈ lines, (∃ l0, l' = normLine l0) ∧ l' ≠ [] := by
      intro l' hl'
      rw [hlines, List.mem_filter] at hl'
      obtain ⟨hmem', hne⟩ := hl'
      rw [List.mem_map] at hmem'
      obtain ⟨l0, _, rfl⟩ := hmem'
      exact ⟨⟨l0, rfl⟩, by simpa using hne⟩
    have hfree : ∀ l' ∈ lines, l' ≠ [] ∧ ∀ c ∈ l', isLineBreak c = false := by
      intro l' hl'
      obtain ⟨⟨l0, rfl⟩, hne⟩ := hmem l' hl'
      refine ⟨hne, ?_⟩
      intro c hc
      by_cases hb : isLineBreak c = true
      · have hws := break_is_ws c hb
        have hsp := (normLine_canonical l0).2.2.1 c hc hws
        rw [hsp] at hb
        exact absurd hb (by decide)
      · simpa using hb
    have hsplit : splitlines (joinNL lines) = lines := splitlines_joinNL lines hfree
    have hmapid : lines.map normLine = lines := by
      have hcg : lines.map normLine = lines.map id := by
        apply List.map_congr_left
        intro l' hl'
        obtain ⟨⟨l0, rfl⟩, _⟩ := hmem l' hl'
        show normLine (normLine l0) = normLine l0
        apply normLine_idem
        by_cases hc : containsSeq ['/', '/'] (normLine l0) = true
        · exfalso
          have hj := containsSeq_joinNL ['/', '/'] lines (normLine l0) hl' hc
          have hds' : containsSeq ['/', '/'] (joinNL lines) = false := hds
          rw [hj] at hds'
          cases hds'
        · simpa using hc
      rw [hcg, List.map_id]
    have hfilter : lines.filter (fun l => !l.isEmpty) = lines := by
      rw [List.filter_eq_self]
      intro l' hl'
      simpa [List.isEmpty_iff] using (hmem l' hl').2
    calc normalize_code (normalize_code code)
        = String.mk (joinNL (((splitlines (joinNL lines)).map normLine).filter
            (fun l => !l.isEmpty))) := rfl
      _ = String.mk (joinNL lines) := by rw [hsplit, hmapid, hfilter]
      _ = normalize_code code := rfl
  exact ⟨hmain, fun f => congrArg f hmain⟩

/-- C10 witness: on "x = 1" the double-slash guard holds and a second
normalization pass (and hence the fingerprint of the normalized text) is
unchanged. -/
theorem C10_normalize_idempotent_witness :
    strContains (normalize_code "x = 1") "//" = false ∧
    normalize_code (normalize_code "x = 1") = normalize_code "x = 1" ∧
    compute_code_hash id (normalize_code "x = 1") = compute_code_hash id "x = 1" := by
  have h := C10_normalize_idempotent "x = 1" (by decide)
  exact ⟨by decide, h.1, h.2 id⟩
